import Mathlib

/-!
A verification development for the BLAM! word-game core: the round-scoped
claim arbitrator (`src/game/arbitrator.rs`, `src/game/validation.rs`), the
append-only event log and its anti-entropy sync (`src/storage/mod.rs`,
`src/storage/sync.rs`), and the pairwise-Elo replay engine
(`src/stats/mod.rs`, `Storage::rebuild_elo_cache`).

Strings are modelled as `List Char` (the code is ASCII-facing: racks are
single ASCII letters and handles are plain text); `u32`/`u64`/`usize`
counters are modelled as `Nat` and `i64` values as `Int`.  Rust `HashMap`s
are modelled as association lists: the code only ever inserts a fresh key,
overwrites a whole key, or folds over entries whose per-key effects are
independent, so the list order never influences any modelled observable.
`f64` arithmetic in the Elo engine is modelled as exact real arithmetic.
-/

abbrev Str := List Char

/-- Uppercase a word character-by-character (`str::to_uppercase`; the game
only feeds ASCII words, where Rust's Unicode uppercasing and `Char.toUpper`
agree and preserve length). -/
def toUpperStr (w : Str) : Str := w.map Char.toUpper

/-- Association-list lookup, first entry wins (model of `HashMap::get`;
the modelled maps never hold a duplicated key). -/
def alookup {κ β : Type} [DecidableEq κ] (k : κ) : List (κ × β) → Option β
  | [] => none
  | (k', v) :: rest => if k' = k then some v else alookup k rest

/-- Association-list overwrite-or-append (model of `HashMap::insert`). -/
def upsert {κ β : Type} [DecidableEq κ] (k : κ) (v : β) : List (κ × β) → List (κ × β)
  | [] => [(k, v)]
  | (k', v') :: rest => if k' = k then (k, v) :: rest else (k', v') :: upsert k v rest

/-- Drop duplicates keeping the first occurrence, with an accumulator of
already-seen elements (model of the `HashSet`-based `retain` in
`check_letters_available`). -/
def dedupFirstAux {α : Type} [DecidableEq α] : List α → List α → List α
  | [], _ => []
  | c :: rest, seen =>
    if c ∈ seen then dedupFirstAux rest seen else c :: dedupFirstAux rest (c :: seen)

/-- Drop duplicates keeping the first occurrence. -/
def dedupFirst {α : Type} [DecidableEq α] (l : List α) : List α := dedupFirstAux l []

/-! ## Word validation (`src/game/validation.rs`) -/

/-- `MIN_WORD_LENGTH` from `validation.rs`. -/
def MIN_WORD_LENGTH : Nat := 1

/-- `ValidationResult` from `validation.rs`. -/
inductive ValidationResult : Type
  | Valid : ValidationResult
  | TooShort (length : Nat) : ValidationResult
  | InvalidLetters (missing : Str) : ValidationResult
  | NotInDictionary : ValidationResult
deriving DecidableEq, Repr

/-- The first loop of `check_letters_available`: walk the word, consuming one
matching rack letter per character (`position` + `swap_remove`, whose effect
on the remaining pool is exactly removing one occurrence), collecting the
characters that found no letter. -/
def collectMissing : Str → Str → Str
  | [], _ => []
  | c :: rest, avail =>
    if c ∈ avail then collectMissing rest (avail.erase c)
    else c :: collectMissing rest avail

/-- `check_letters_available` from `validation.rs`: `none` when every letter
of the word is available in the rack with multiplicity, otherwise the missing
letters deduplicated preserving first occurrence. -/
def check_letters_available (word : Str) (rack : Str) : Option Str :=
  let missing := collectMissing word rack
  if missing = [] then none else some (dedupFirst missing)

/-- `validate_word` from `validation.rs`.  The dictionary
(`dictionary::is_valid_word`, an embedded-wordlist lookup that the spec
treats as an external collaborator) is abstracted as the parameter `dict`. -/
def validate_word (dict : Str → Bool) (word : Str) (rack : Str) : ValidationResult :=
  let word_upper := toUpperStr word
  if word_upper.length < MIN_WORD_LENGTH then
    ValidationResult.TooShort word_upper.length
  else
    match check_letters_available word_upper rack with
    | some missing => ValidationResult.InvalidLetters missing
    | none =>
      if dict word_upper then ValidationResult.Valid
      else ValidationResult.NotInDictionary

/-! ## Claim arbitration (`src/game/arbitrator.rs`) -/

/-- `ClaimResult` from `arbitrator.rs`.  The `AlreadyClaimed` payload field
is called `by` in the source; `by` is a Lean keyword so it is `byPlayer`
here. -/
inductive ClaimResult : Type
  | Accepted (points : Nat) (claim_sequence : Nat) : ClaimResult
  | AlreadyClaimed (byPlayer : Str) : ClaimResult
  | TooShort : ClaimResult
  | InvalidLetters (missing : Str) : ClaimResult
  | NotInDictionary : ClaimResult
  | RoundEnded : ClaimResult
deriving DecidableEq, Repr

/-- `RoundArbitrator` state from `arbitrator.rs`. -/
structure RoundArbitrator : Type where
  letters : Str
  claimed_words : List (Str × Str)
  scores : List (Str × Nat)
  round_active : Bool
  claim_sequence : Nat
deriving DecidableEq, Repr

/-- `scores.insert(player, 0)` used by `RoundArbitrator::new`. -/
def setScoreZero (p : Str) (m : List (Str × Nat)) : List (Str × Nat) := upsert p 0 m

/-- `RoundArbitrator::new`. -/
def RoundArbitrator.new (letters : Str) (players : List Str) : RoundArbitrator :=
  { letters := letters
    claimed_words := []
    scores := players.foldl (fun acc p => setScoreZero p acc) []
    round_active := true
    claim_sequence := 0 }

/-- `*scores.entry(player).or_insert(0) += points` used by `try_claim`. -/
def bumpScore (p : Str) (pts : Nat) : List (Str × Nat) → List (Str × Nat)
  | [] => [(p, pts)]
  | (q, s) :: rest => if q = p then (q, s + pts) :: rest else (q, s) :: bumpScore p pts rest

/-- `RoundArbitrator::try_claim`, returning the `ClaimResult` together with
the successor state (the Rust method mutates `self`). -/
def try_claim (dict : Str → Bool) (s : RoundArbitrator) (word player_name : Str) :
    ClaimResult × RoundArbitrator :=
  if s.round_active = false then
    (ClaimResult.RoundEnded, s)
  else
    let word_upper := toUpperStr word
    match alookup word_upper s.claimed_words with
    | some claimed_by => (ClaimResult.AlreadyClaimed claimed_by, s)
    | none =>
      match validate_word dict word_upper s.letters with
      | ValidationResult.Valid =>
        let points := (toUpperStr word).length
        (ClaimResult.Accepted points (s.claim_sequence + 1),
         { s with
            claimed_words := (toUpperStr word, player_name) :: s.claimed_words
            scores := bumpScore player_name points s.scores
            claim_sequence := s.claim_sequence + 1 })
      | ValidationResult.TooShort _ => (ClaimResult.TooShort, s)
      | ValidationResult.InvalidLetters missing => (ClaimResult.InvalidLetters missing, s)
      | ValidationResult.NotInDictionary => (ClaimResult.NotInDictionary, s)

/-- `RoundArbitrator::end_round`. -/
def end_round (s : RoundArbitrator) : RoundArbitrator := { s with round_active := false }

/-- One operation issued to a live arbitrator. -/
inductive ArbOp : Type
  | claim (word player : Str) : ArbOp
  | endRound : ArbOp
deriving DecidableEq, Repr

/-- Run a sequence of arbitrator operations, collecting the `ClaimResult` of
each `claim` (`none` marks an `end_round`). -/
def runOps (dict : Str → Bool) (s : RoundArbitrator) :
    List ArbOp → List (Option ClaimResult) × RoundArbitrator
  | [] => ([], s)
  | ArbOp.claim w p :: rest =>
    (some (try_claim dict s w p).1 :: (runOps dict (try_claim dict s w p).2 rest).1,
     (runOps dict (try_claim dict s w p).2 rest).2)
  | ArbOp.endRound :: rest =>
    (none :: (runOps dict (end_round s) rest).1, (runOps dict (end_round s) rest).2)

section ArbitratorLemmas

/-- `try_claim` never changes the `round_active` flag. -/
theorem try_claim_active (dict : Str → Bool) (s : RoundArbitrator) (w p : Str) :
    ((try_claim dict s w p).2).round_active = s.round_active := by
  cases hact : s.round_active with
  | false => simp [try_claim, hact]
  | true =>
    cases hcl : alookup (toUpperStr w) s.claimed_words with
    | some q => simp [try_claim, hact, hcl]
    | none =>
      cases hv : validate_word dict (toUpperStr w) s.letters <;>
        simp [try_claim, hact, hcl, hv]

/-- `try_claim` preserves every existing `claimed_words` entry. -/
theorem try_claim_preserves_claimed (dict : Str → Bool) (s : RoundArbitrator) (w p k v : Str)
    (h : alookup k s.claimed_words = some v) :
    alookup k ((try_claim dict s w p).2).claimed_words = some v := by
  cases hact : s.round_active with
  | false => simpa [try_claim, hact] using h
  | true =>
    cases hcl : alookup (toUpperStr w) s.claimed_words with
    | some q => simpa [try_claim, hact, hcl] using h
    | none =>
      cases hv : validate_word dict (toUpperStr w) s.letters with
      | Valid =>
        have hne : toUpperStr w ≠ k := by
          intro he; rw [he, h] at hcl; exact Option.noConfusion hcl
        simp [try_claim, hact, hcl, hv, alookup, hne, h]
      | TooShort l => simpa [try_claim, hact, hcl, hv] using h
      | InvalidLetters m => simpa [try_claim, hact, hcl, hv] using h
      | NotInDictionary => simpa [try_claim, hact, hcl, hv] using h

/-- A successful `try_claim` records the claim in `claimed_words`. -/
theorem try_claim_accept_sets (dict : Str → Bool) (s : RoundArbitrator) (w p : Str)
    (pts sq : Nat) (h : (try_claim dict s w p).1 = ClaimResult.Accepted pts sq) :
    alookup (toUpperStr w) ((try_claim dict s w p).2).claimed_words = some p := by
  cases hact : s.round_active with
  | false => simp [try_claim, hact] at h
  | true =>
    cases hcl : alookup (toUpperStr w) s.claimed_words with
    | some q => simp [try_claim, hact, hcl] at h
    | none =>
      cases hv : validate_word dict (toUpperStr w) s.letters with
      | Valid => simp [try_claim, hact, hcl, hv, alookup]
      | TooShort l => simp [try_claim, hact, hcl, hv] at h
      | InvalidLetters m => simp [try_claim, hact, hcl, hv] at h
      | NotInDictionary => simp [try_claim, hact, hcl, hv] at h

/-- A claim for an already-claimed normalized word on an active arbitrator
is answered `AlreadyClaimed` with the recorded claimant. -/
theorem try_claim_already (dict : Str → Bool) (s : RoundArbitrator) (w p q : Str)
    (hact : s.round_active = true) (h : alookup (toUpperStr w) s.claimed_words = some q) :
    try_claim dict s w p = (ClaimResult.AlreadyClaimed q, s) := by
  simp [try_claim, hact, h]

/-- A claim on an inactive arbitrator is answered `RoundEnded` and leaves the
state untouched. -/
theorem try_claim_inactive (dict : Str → Bool) (s : RoundArbitrator) (w p : Str)
    (hact : s.round_active = false) :
    try_claim dict s w p = (ClaimResult.RoundEnded, s) := by
  unfold try_claim
  simp [hact]

end ArbitratorLemmas

section TraceLemmas

variable (dict : Str → Bool)

/-- Claim entries persist across any run of arbitrator operations. -/
theorem runOps_preserves_claimed (ops : List ArbOp) :
    ∀ (s : RoundArbitrator) (k v : Str), alookup k s.claimed_words = some v →
      alookup k ((runOps dict s ops).2).claimed_words = some v := by
  induction ops with
  | nil => intro s k v h; exact h
  | cons op rest ih =>
    intro s k v h
    cases op with
    | claim w p => exact ih _ _ _ (try_claim_preserves_claimed dict s w p k v h)
    | endRound => exact ih _ _ _ h

/-- Once a normalized word is recorded in `claimed_words` with claimant `v`,
every later claim of that word is answered `AlreadyClaimed v` while the round
is active, and `RoundEnded` once it is not. -/
theorem runOps_claimed_blocks (ops : List ArbOp) :
    ∀ (s : RoundArbitrator) (k v : Str) (j : Nat) (w p : Str),
      alookup k s.claimed_words = some v →
      ops[j]? = some (ArbOp.claim w p) →
      toUpperStr w = k →
      (((runOps dict s (ops.take j)).2.round_active = true →
          (runOps dict s ops).1[j]? = some (some (ClaimResult.AlreadyClaimed v)))
        ∧ ((runOps dict s (ops.take j)).2.round_active = false →
          (runOps dict s ops).1[j]? = some (some ClaimResult.RoundEnded))) := by
  induction ops with
  | nil => intro s k v j w p _ hj _; simp at hj
  | cons op rest ih =>
    intro s k v j w p hcl hj hk
    cases j with
    | zero =>
      simp only [List.getElem?_cons_zero, Option.some.injEq] at hj
      subst hj
      constructor
      · intro hact
        simp only [List.take_zero, runOps] at hact
        rw [← hk] at hcl
        simp [runOps, try_claim_already dict s w p v hact hcl]
      · intro hact
        simp only [List.take_zero, runOps] at hact
        simp [runOps, try_claim_inactive dict s w p hact]
    | succ j' =>
      simp only [List.getElem?_cons_succ] at hj
      cases op with
      | claim w0 p0 =>
        have hcl' := try_claim_preserves_claimed dict s w0 p0 k v hcl
        have := ih (try_claim dict s w0 p0).2 k v j' w p hcl' hj hk
        simpa [runOps, List.take_succ_cons] using this
      | endRound =>
        have := ih (end_round s) k v j' w p hcl hj hk
        simpa [runOps, List.take_succ_cons] using this

/-- From an inactive arbitrator every claim in a run is answered
`RoundEnded`. -/
theorem runOps_inactive (ops : List ArbOp) :
    ∀ (s : RoundArbitrator), s.round_active = false →
      ∀ (j : Nat) (w p : Str), ops[j]? = some (ArbOp.claim w p) →
        (runOps dict s ops).1[j]? = some (some ClaimResult.RoundEnded) := by
  induction ops with
  | nil => intro s _ j w p hj; simp at hj
  | cons op rest ih =>
    intro s hact j w p hj
    cases j with
    | zero =>
      simp only [List.getElem?_cons_zero, Option.some.injEq] at hj
      subst hj
      simp [runOps, try_claim_inactive dict s w p hact]
    | succ j' =>
      simp only [List.getElem?_cons_succ] at hj
      cases op with
      | claim w0 p0 =>
        have hact' : ((try_claim dict s w0 p0).2).round_active = false := by
          rw [try_claim_active]; exact hact
        simpa [runOps] using ih (try_claim dict s w0 p0).2 hact' j' w p hj
      | endRound =>
        simpa [runOps] using ih (end_round s) rfl j' w p hj

end TraceLemmas

/-- C1.  Across any sequence of arbitrator operations, at most one `claim`
per normalized (uppercased) word is answered `Accepted`, and every later
claim of that normalized word issued while the round is still active is
answered `AlreadyClaimed` carrying the player whose claim was accepted. -/
theorem try_claim_first_accept_wins (dict : Str → Bool) (ops : List ArbOp) :
    ∀ (s : RoundArbitrator) (i j : Nat) (wi pi wj pj : Str) (pts sq : Nat),
      i < j →
      ops[i]? = some (ArbOp.claim wi pi) →
      ops[j]? = some (ArbOp.claim wj pj) →
      toUpperStr wi = toUpperStr wj →
      (runOps dict s ops).1[i]? = some (some (ClaimResult.Accepted pts sq)) →
      ((∀ pts' sq' : Nat,
          (runOps dict s ops).1[j]? ≠ some (some (ClaimResult.Accepted pts' sq')))
        ∧ ((runOps dict s (ops.take j)).2.round_active = true →
          (runOps dict s ops).1[j]? = some (some (ClaimResult.AlreadyClaimed pi)))) := by
  induction ops with
  | nil => intro s i j wi pi wj pj pts sq _ hi _ _ _; simp at hi
  | cons op rest ih =>
    intro s i j wi pi wj pj pts sq hij hi hj hupper hres
    cases i with
    | zero =>
      simp only [List.getElem?_cons_zero, Option.some.injEq] at hi
      subst hi
      obtain ⟨j', rfl⟩ : ∃ j'', j = j'' + 1 := ⟨j - 1, by omega⟩
      simp only [List.getElem?_cons_succ] at hj
      have hacc : (try_claim dict s wi pi).1 = ClaimResult.Accepted pts sq := by
        simpa [runOps] using hres
      have hset := try_claim_accept_sets dict s wi pi pts sq hacc
      have hblocks := runOps_claimed_blocks dict rest (try_claim dict s wi pi).2
        (toUpperStr wi) pi j' wj pj hset hj hupper.symm
      constructor
      · intro pts' sq' hcontra
        have hres' : (runOps dict (try_claim dict s wi pi).2 rest).1[j']? =
            some (some (ClaimResult.Accepted pts' sq')) := by
          simpa [runOps] using hcontra
        cases hact : (runOps dict (try_claim dict s wi pi).2 (rest.take j')).2.round_active with
        | true => rw [hblocks.1 hact] at hres'; simp at hres'
        | false => rw [hblocks.2 hact] at hres'; simp at hres'
      · intro hact
        have hact' :
            (runOps dict (try_claim dict s wi pi).2 (rest.take j')).2.round_active = true := by
          simpa [runOps, List.take_succ_cons] using hact
        simpa [runOps] using hblocks.1 hact'
    | succ i' =>
      obtain ⟨j', rfl⟩ : ∃ j'', j = j'' + 1 := ⟨j - 1, by omega⟩
      simp only [List.getElem?_cons_succ] at hi hj
      cases op with
      | claim w0 p0 =>
        have hres' : (runOps dict (try_claim dict s w0 p0).2 rest).1[i']? =
            some (some (ClaimResult.Accepted pts sq)) := by simpa [runOps] using hres
        have hmain := ih (try_claim dict s w0 p0).2 i' j' wi pi wj pj pts sq
          (by omega) hi hj hupper hres'
        constructor
        · intro pts' sq' hcontra
          exact hmain.1 pts' sq' (by simpa [runOps] using hcontra)
        · intro hact
          have hact' :
              (runOps dict (try_claim dict s w0 p0).2 (rest.take j')).2.round_active = true := by
            simpa [runOps, List.take_succ_cons] using hact
          simpa [runOps] using hmain.2 hact'
      | endRound =>
        have hres' : (runOps dict (end_round s) rest).1[i']? =
            some (some (ClaimResult.Accepted pts sq)) := by simpa [runOps] using hres
        have hmain := ih (end_round s) i' j' wi pi wj pj pts sq (by omega) hi hj hupper hres'
        constructor
        · intro pts' sq' hcontra
          exact hmain.1 pts' sq' (by simpa [runOps] using hcontra)
        · intro hact
          have hact' : (runOps dict (end_round s) (rest.take j')).2.round_active = true := by
            simpa [runOps, List.take_succ_cons] using hact
          simpa [runOps] using hmain.2 hact'

/-- Concrete instance of `try_claim_first_accept_wins`: Alice claims "cat",
then Bob's claim of "CAT" is answered `AlreadyClaimed "Alice"`. -/
theorem try_claim_first_accept_wins_witness :
    (runOps (fun w => decide (w = ['C', 'A', 'T']))
        (RoundArbitrator.new ['C', 'A', 'T'] [['A', 'l', 'i', 'c', 'e'], ['B', 'o', 'b']])
        [ArbOp.claim ['c', 'a', 't'] ['A', 'l', 'i', 'c', 'e'],
          ArbOp.claim ['C', 'A', 'T'] ['B', 'o', 'b']]).1[1]? =
      some (some (ClaimResult.AlreadyClaimed ['A', 'l', 'i', 'c', 'e'])) :=
  (try_claim_first_accept_wins (fun w => decide (w = ['C', 'A', 'T']))
    [ArbOp.claim ['c', 'a', 't'] ['A', 'l', 'i', 'c', 'e'],
      ArbOp.claim ['C', 'A', 'T'] ['B', 'o', 'b']]
    (RoundArbitrator.new ['C', 'A', 'T'] [['A', 'l', 'i', 'c', 'e'], ['B', 'o', 'b']])
    0 1 ['c', 'a', 't'] ['A', 'l', 'i', 'c', 'e'] ['C', 'A', 'T'] ['B', 'o', 'b'] 3 1
    (by decide) (by decide) (by decide) (by decide) (by decide)).2 (by decide)

/-- C8.  After `end_round`, every subsequent claim in any run of arbitrator
operations is answered `RoundEnded`, and `end_round` is idempotent. -/
theorem end_round_gates_claims :
    (∀ (dict : Str → Bool) (s : RoundArbitrator) (ops : List ArbOp) (j : Nat) (w p : Str),
        ops[j]? = some (ArbOp.claim w p) →
        (runOps dict (end_round s) ops).1[j]? = some (some ClaimResult.RoundEnded))
    ∧ ∀ s : RoundArbitrator, end_round (end_round s) = end_round s := by
  constructor
  · intro dict s ops j w p hj
    exact runOps_inactive dict ops (end_round s) rfl j w p hj
  · intro s; rfl

/-- Concrete instance of `end_round_gates_claims`: after `end_round` even a
perfectly valid claim is answered `RoundEnded`. -/
theorem end_round_gates_claims_witness :
    (runOps (fun w => decide (w = ['C', 'A', 'T']))
        (end_round (RoundArbitrator.new ['C', 'A', 'T'] [['B', 'o', 'b']]))
        [ArbOp.claim ['c', 'a', 't'] ['B', 'o', 'b']]).1[0]? =
      some (some ClaimResult.RoundEnded) :=
  end_round_gates_claims.1 (fun w => decide (w = ['C', 'A', 'T']))
    (RoundArbitrator.new ['C', 'A', 'T'] [['B', 'o', 'b']])
    [ArbOp.claim ['c', 'a', 't'] ['B', 'o', 'b']] 0 ['c', 'a', 't'] ['B', 'o', 'b']
    (by decide)

/-- C10.  Any `try_claim` whose result is not `Accepted` leaves the whole
arbitrator state (letters, claimed words, scores, active flag and claim
sequence) unchanged. -/
theorem try_claim_reject_no_state_change (dict : Str → Bool) (s : RoundArbitrator) (w p : Str)
    (h : ∀ pts sq : Nat, (try_claim dict s w p).1 ≠ ClaimResult.Accepted pts sq) :
    (try_claim dict s w p).2 = s := by
  cases hact : s.round_active with
  | false => rw [try_claim_inactive dict s w p hact]
  | true =>
    cases hcl : alookup (toUpperStr w) s.claimed_words with
    | some q => simp [try_claim, hact, hcl]
    | none =>
      cases hv : validate_word dict (toUpperStr w) s.letters with
      | Valid =>
        refine absurd ?_ (h (toUpperStr w).length (s.claim_sequence + 1))
        simp [try_claim, hact, hcl, hv]
      | TooShort l => simp [try_claim, hact, hcl, hv]
      | InvalidLetters m => simp [try_claim, hact, hcl, hv]
      | NotInDictionary => simp [try_claim, hact, hcl, hv]

/-- Concrete instance of `try_claim_reject_no_state_change`: a claim of "zz"
(rejected, the rack has no Z) leaves the arbitrator untouched. -/
theorem try_claim_reject_no_state_change_witness :
    (try_claim (fun _ => false) (RoundArbitrator.new ['C', 'A', 'T'] [['B', 'o', 'b']])
        ['z', 'z'] ['B', 'o', 'b']).2 =
      RoundArbitrator.new ['C', 'A', 'T'] [['B', 'o', 'b']] :=
  try_claim_reject_no_state_change (fun _ => false)
    (RoundArbitrator.new ['C', 'A', 'T'] [['B', 'o', 'b']]) ['z', 'z'] ['B', 'o', 'b']
    (by
      intro pts sq hc
      have h1 : (try_claim (fun _ => false)
          (RoundArbitrator.new ['C', 'A', 'T'] [['B', 'o', 'b']])
          ['z', 'z'] ['B', 'o', 'b']).1 = ClaimResult.InvalidLetters ['Z'] := by decide
      rw [h1] at hc
      exact ClaimResult.noConfusion hc)

section ValidationLemmas

/-- The collected missing characters form a subsequence of the word. -/
theorem collectMissing_sublist : ∀ (w avail : Str), (collectMissing w avail).Sublist w := by
  intro w
  induction w with
  | nil => intro avail; simp [collectMissing]
  | cons c rest ih =>
    intro avail
    by_cases hc : c ∈ avail
    · simpa [collectMissing, hc] using (ih (avail.erase c)).cons c
    · simpa [collectMissing, hc] using (ih avail).cons₂ c

/-- Elements surviving deduplication were not previously seen. -/
theorem dedupFirstAux_not_seen {α : Type} [DecidableEq α] :
    ∀ (l seen : List α) (x : α), x ∈ dedupFirstAux l seen → x ∉ seen := by
  intro l
  induction l with
  | nil => intro seen x hx; simp [dedupFirstAux] at hx
  | cons c rest ih =>
    intro seen x hx
    by_cases hc : c ∈ seen
    · exact ih seen x (by simpa [dedupFirstAux, hc] using hx)
    · simp only [dedupFirstAux, if_neg hc, List.mem_cons] at hx
      rcases hx with rfl | hx
      · exact hc
      · intro hxs
        exact ih (c :: seen) x hx (List.mem_cons_of_mem c hxs)

/-- Deduplication produces a duplicate-free list. -/
theorem dedupFirstAux_nodup {α : Type} [DecidableEq α] :
    ∀ (l seen : List α), (dedupFirstAux l seen).Nodup := by
  intro l
  induction l with
  | nil => intro seen; simp [dedupFirstAux]
  | cons c rest ih =>
    intro seen
    by_cases hc : c ∈ seen
    · simpa [dedupFirstAux, hc] using ih seen
    · simp only [dedupFirstAux, if_neg hc, List.nodup_cons]
      refine ⟨fun hmem => ?_, ih (c :: seen)⟩
      exact dedupFirstAux_not_seen rest (c :: seen) c hmem (List.mem_cons_self c seen)

/-- Deduplication keeps a subsequence of the input. -/
theorem dedupFirstAux_sublist {α : Type} [DecidableEq α] :
    ∀ (l seen : List α), (dedupFirstAux l seen).Sublist l := by
  intro l
  induction l with
  | nil => intro seen; simp [dedupFirstAux]
  | cons c rest ih =>
    intro seen
    by_cases hc : c ∈ seen
    · simpa [dedupFirstAux, hc] using (ih seen).cons c
    · simpa [dedupFirstAux, hc] using (ih (c :: seen)).cons₂ c

end ValidationLemmas

/-- C7.  `validate_word` applies its checks in fixed priority order: a word
shorter than the minimum is `TooShort`; otherwise unavailable letters give
`InvalidLetters` with the missing letters duplicate-free and listed as a
subsequence of the word (order of first occurrence), whatever the dictionary
says; otherwise an unknown word is `NotInDictionary`; otherwise `Valid`.
Concretely, on a fresh arbitrator with rack A..L, claiming `""` is answered
`TooShort` and claiming `"zz"` is answered `InvalidLetters`, under every
dictionary. -/
theorem validate_word_priority_order :
    (∀ (dict : Str → Bool) (w rack : Str),
        (toUpperStr w).length < MIN_WORD_LENGTH →
        validate_word dict w rack = ValidationResult.TooShort (toUpperStr w).length)
    ∧ (∀ (dict : Str → Bool) (w rack : Str) (m : Str),
        ¬(toUpperStr w).length < MIN_WORD_LENGTH →
        check_letters_available (toUpperStr w) rack = some m →
        validate_word dict w rack = ValidationResult.InvalidLetters m)
    ∧ (∀ (dict : Str → Bool) (w rack : Str),
        ¬(toUpperStr w).length < MIN_WORD_LENGTH →
        check_letters_available (toUpperStr w) rack = none →
        dict (toUpperStr w) = false →
        validate_word dict w rack = ValidationResult.NotInDictionary)
    ∧ (∀ (dict : Str → Bool) (w rack : Str),
        ¬(toUpperStr w).length < MIN_WORD_LENGTH →
        check_letters_available (toUpperStr w) rack = none →
        dict (toUpperStr w) = true →
        validate_word dict w rack = ValidationResult.Valid)
    ∧ (∀ (word rack m : Str), check_letters_available word rack = some m →
        m ≠ [] ∧ m.Nodup ∧ m.Sublist word)
    ∧ (∀ (dict : Str → Bool) (p : Str),
        (try_claim dict
            (RoundArbitrator.new
              ['A', 'B', 'C', 'D', 'E', 'F', 'G', 'H', 'I', 'J', 'K', 'L'] []) [] p).1 =
          ClaimResult.TooShort
        ∧ (try_claim dict
            (RoundArbitrator.new
              ['A', 'B', 'C', 'D', 'E', 'F', 'G', 'H', 'I', 'J', 'K', 'L'] [])
            ['z', 'z'] p).1 = ClaimResult.InvalidLetters ['Z']) := by
  refine ⟨?_, ?_, ?_, ?_, ?_, ?_⟩
  · intro dict w rack hshort
    simp [validate_word, hshort]
  · intro dict w rack m hlong hcheck
    simp [validate_word, hlong, hcheck]
  · intro dict w rack hlong hcheck hdict
    simp [validate_word, hlong, hcheck, hdict]
  · intro dict w rack hlong hcheck hdict
    simp [validate_word, hlong, hcheck, hdict]
  · intro word rack m hcheck
    unfold check_letters_available at hcheck
    by_cases hmz : collectMissing word rack = []
    · simp [hmz] at hcheck
    · simp only [hmz, if_neg, if_false, Option.some.injEq] at hcheck
      subst hcheck
      refine ⟨?_, dedupFirstAux_nodup _ _, (dedupFirstAux_sublist _ _).trans (collectMissing_sublist word rack)⟩
      cases hcm : collectMissing word rack with
      | nil => exact absurd hcm hmz
      | cons c restm =>
        simp [dedupFirst, dedupFirstAux]
  · intro dict p
    constructor
    · rfl
    · rfl

/-- Concrete instance of `validate_word_priority_order`: with rack A..L and a
dictionary refusing everything, "zz" is reported `InvalidLetters ['Z']` (the
letter check fires before the dictionary), not `TooShort`. -/
theorem validate_word_priority_order_witness :
    validate_word (fun _ => false) ['z', 'z']
        ['A', 'B', 'C', 'D', 'E', 'F', 'G', 'H', 'I', 'J', 'K', 'L'] =
      ValidationResult.InvalidLetters ['Z'] :=
  validate_word_priority_order.2.1 (fun _ => false) ['z', 'z']
    ['A', 'B', 'C', 'D', 'E', 'F', 'G', 'H', 'I', 'J', 'K', 'L'] ['Z']
    (by decide) (by decide)

/-! ## Event log (`src/storage/mod.rs`) -/

/-- A stored event (`Event` from `storage/mod.rs`).  The 16-byte `ActorId`
blob is a list of byte values; `seq`/`created_at` are `i64`. -/
structure Event : Type where
  actor_id : List Nat
  seq : Int
  event_type : Str
  payload : Str
  created_at : Int
deriving DecidableEq, Repr

/-- The primary key `(actor_id, seq)` of the `events` table. -/
def eventKey (e : Event) : List Nat × Int := (e.actor_id, e.seq)

/-- Whether the log already holds a row with the given primary key. -/
def keyPresent (log : List Event) (a : List Nat) (sq : Int) : Bool :=
  log.any (fun e => decide (e.actor_id = a) && decide (e.seq = sq))

/-- `Storage::insert_remote_event`: `INSERT OR IGNORE` on the primary key
`(actor_id, seq)`; returns whether a new row was added, with the updated
log. -/
def insert_remote_event (log : List Event) (e : Event) : Bool × List Event :=
  if keyPresent log e.actor_id e.seq then (false, log) else (true, log ++ [e])

/-- `Storage::event_count`. -/
def event_count (log : List Event) : Nat := log.length

/-- C6 counterexample.  The claim quantifies over every event and log state,
but when the log already holds the event's `(actor_id, seq)` key the FIRST
insert already returns `false` (not `true`) and the count does not grow. -/
theorem insert_remote_event_counterexample :
    (insert_remote_event
        [{ actor_id := List.replicate 16 0, seq := 1, event_type := ['t'],
           payload := [], created_at := 0 }]
        { actor_id := List.replicate 16 0, seq := 1, event_type := ['t'],
          payload := [], created_at := 0 }).1 = false
    ∧ event_count (insert_remote_event
        [{ actor_id := List.replicate 16 0, seq := 1, event_type := ['t'],
           payload := [], created_at := 0 }]
        { actor_id := List.replicate 16 0, seq := 1, event_type := ['t'],
          payload := [], created_at := 0 }).2 =
      event_count
        [{ actor_id := List.replicate 16 0, seq := 1, event_type := ['t'],
           payload := [], created_at := 0 }] := by
  constructor
  · decide
  · decide

/-- C6 (amended).  For an event whose `(actor_id, seq)` key is not yet in
the log, inserting it twice returns `true` then `false` and grows the count
by exactly one, the second call changing nothing; and an event whose key is
already present is never overwritten: the call returns `false` and leaves
the log unchanged. -/
theorem insert_remote_event_idempotent :
    (∀ (log : List Event) (e : Event),
        keyPresent log e.actor_id e.seq = false →
        (insert_remote_event log e).1 = true
        ∧ (insert_remote_event (insert_remote_event log e).2 e).1 = false
        ∧ (insert_remote_event (insert_remote_event log e).2 e).2 =
            (insert_remote_event log e).2
        ∧ event_count (insert_remote_event log e).2 = event_count log + 1)
    ∧ ∀ (log : List Event) (e : Event),
        keyPresent log e.actor_id e.seq = true →
        insert_remote_event log e = (false, log) := by
  constructor
  · intro log e habs
    have h1 : insert_remote_event log e = (true, log ++ [e]) := by
      simp [insert_remote_event, habs]
    have hpres : keyPresent (log ++ [e]) e.actor_id e.seq = true := by
      simp [keyPresent, List.any_append]
    refine ⟨by simp [h1], ?_, ?_, ?_⟩
    · rw [h1]; simp [insert_remote_event, hpres]
    · rw [h1]; simp [insert_remote_event, hpres]
    · rw [h1]; simp [event_count]
  · intro log e hpres
    simp [insert_remote_event, hpres]

/-- Concrete instance of `insert_remote_event_idempotent` on a fresh log. -/
theorem insert_remote_event_idempotent_witness :
    (insert_remote_event []
        { actor_id := List.replicate 16 0, seq := 1, event_type := ['t'],
          payload := [], created_at := 0 }).1 = true :=
  (insert_remote_event_idempotent.1 []
    { actor_id := List.replicate 16 0, seq := 1, event_type := ['t'],
      payload := [], created_at := 0 } (by decide)).1

/-! ## Anti-entropy sync (`src/storage/sync.rs`) -/

/-- `SyncEvent` from `network/protocol.rs`: the wire form of an event, with
the actor id as a hex string. -/
structure SyncEvent : Type where
  actor_id : Str
  seq : Int
  event_type : Str
  payload : Str
  created_at : Int
deriving DecidableEq, Repr

/-- Value of one hex digit (`char::to_digit(16)`, accepted in both cases). -/
def hexDigitVal (c : Char) : Option Nat :=
  if '0' ≤ c ∧ c ≤ '9' then some (c.toNat - '0'.toNat)
  else if 'a' ≤ c ∧ c ≤ 'f' then some (c.toNat - 'a'.toNat + 10)
  else if 'A' ≤ c ∧ c ≤ 'F' then some (c.toNat - 'A'.toNat + 10)
  else none

/-- UTF-8 byte width of one character (used by Rust's byte-indexed `str`
operations). -/
def charUtf8Len (c : Char) : Nat :=
  if c.toNat < 128 then 1
  else if c.toNat < 2048 then 2
  else if c.toNat < 65536 then 3
  else 4

/-- `str::len`: the UTF-8 byte length of a string. -/
def strByteLen (s : Str) : Nat := (s.map charUtf8Len).sum

/-- Drop the characters occupying the first `n` bytes; `none` when `n` is
not a character boundary or lies past the end — exactly when Rust string
slicing would panic at that start offset. -/
def dropBytes : Str → Nat → Option Str
  | s, 0 => some s
  | [], _ + 1 => none
  | c :: cs, n + 1 =>
    if charUtf8Len c ≤ n + 1 then dropBytes cs (n + 1 - charUtf8Len c) else none

/-- Take the characters occupying the first `n` bytes; `none` when `n` is
not a character boundary or lies past the end. -/
def takeBytes : Str → Nat → Option Str
  | _, 0 => some []
  | [], _ + 1 => none
  | c :: cs, n + 1 =>
    if charUtf8Len c ≤ n + 1 then
      (takeBytes cs (n + 1 - charUtf8Len c)).map (fun r => c :: r)
    else none

/-- Rust string slicing `&s[a..b]` (with `a ≤ b`): `none` models the panic
raised when `a` or `b` is not a character boundary or lies past the end. -/
def sliceBytes (s : Str) (a b : Nat) : Option Str := do
  let t ← dropBytes s a
  takeBytes t (b - a)

/-- The digit loop of `u8::from_str_radix(_, 16)`: at least one digit,
accumulated with a `u8` overflow check at every step. -/
def parseHexDigits : Str → Option Nat
  | [] => none
  | ds =>
    ds.foldl
      (fun acc d => do
        let a ← acc
        let v ← hexDigitVal d
        if a * 16 + v ≤ 255 then pure (a * 16 + v) else none)
      (some 0)

/-- `u8::from_str_radix(s, 16)`: an optional sign, then hex digits with
overflow checking (a `-` sign survives the checked unsigned accumulation
only when every digit is zero). -/
def fromStrRadix16 (cs : Str) : Option Nat :=
  match cs with
  | [] => none
  | c :: rest =>
    if c = '+' then parseHexDigits rest
    else if c = '-' then
      match parseHexDigits rest with
      | some 0 => some 0
      | _ => none
    else parseHexDigits (c :: rest)

/-- The `for i in 0..16` loop of `hex_to_bytes`: `Except.error ()` models
the panic of the byte slice `&hex[i*2..i*2+2]` on a non-boundary offset,
`Except.ok none` the `.ok()?` early return on an undecodable slice. -/
def hexBytesLoop (hex : Str) : Nat → Nat → Except Unit (Option (List Nat))
  | 0, _ => Except.ok (some [])
  | n + 1, i =>
    match sliceBytes hex (i * 2) (i * 2 + 2) with
    | none => Except.error ()
    | some slice =>
      match fromStrRadix16 slice with
      | none => Except.ok none
      | some b =>
        match hexBytesLoop hex n (i + 1) with
        | Except.error _ => Except.error ()
        | Except.ok none => Except.ok none
        | Except.ok (some bs) => Except.ok (some (b :: bs))

/-- `hex_to_bytes` from `sync.rs`, modelled at the byte level: the length
check compares the UTF-8 BYTE length with 32, and each `&hex[i*2..i*2+2]`
slice panics (`Except.error ()`) when a slice boundary falls inside a
multi-byte character; a slice whose content fails `u8::from_str_radix`
makes the function return `None` (`Except.ok none`). -/
def hex_to_bytes (hex : Str) : Except Unit (Option (List Nat)) :=
  if strByteLen hex = 32 then hexBytesLoop hex 16 0 else Except.ok none

/-- Convert one wire record to a storage event: the body of the
`filter_map` closure in `sync_to_events` (`hex_to_bytes` then
`ActorId::from_bytes`, which demands 16 bytes); a panic inside
`hex_to_bytes` propagates. -/
def syncToEvent (se : SyncEvent) : Except Unit (Option Event) :=
  match hex_to_bytes se.actor_id with
  | Except.error _ => Except.error ()
  | Except.ok none => Except.ok none
  | Except.ok (some actor_bytes) =>
    if actor_bytes.length = 16 then
      Except.ok (some { actor_id := actor_bytes, seq := se.seq,
                        event_type := se.event_type, payload := se.payload,
                        created_at := se.created_at })
    else Except.ok none

/-- `sync_to_events` from `sync.rs`: `filter_map` over the batch, dropping
records whose conversion returns `None` — but a panic while converting any
record aborts the whole call. -/
def sync_to_events : List SyncEvent → Except Unit (List Event)
  | [] => Except.ok []
  | se :: rest =>
    match syncToEvent se with
    | Except.error _ => Except.error ()
    | Except.ok none => sync_to_events rest
    | Except.ok (some e) =>
      match sync_to_events rest with
      | Except.error _ => Except.error ()
      | Except.ok es => Except.ok (e :: es)

/-- C9 exhibit.  A record whose actor id is 32 BYTES long but holds a
multi-byte character straddling an even byte offset — here `"aé"` followed
by 29 ASCII zeros: byte length 1+2+29 = 32, but offset 2 falls inside `'é'`
— passes the byte-length check and then panics in the slice `&hex[0..2]`,
aborting the whole `sync_to_events` call; the well-formed record of the
same batch, which converts fine on its own, is lost with it.  So a
malformed record IS fatal to the whole batch, refuting the claim. -/
theorem sync_to_events_malformed_fatal :
    sync_to_events
        [{ actor_id := 'a' :: 'é' :: List.replicate 29 '0', seq := 1,
           event_type := ['t'], payload := [], created_at := 0 },
         { actor_id := ['0', '0', '0', '0', '0', '0', '0', '0', '0', '0', '0', '0', '0', '0',
             '0', '0', '0', '0', '0', '0', '0', '0', '0', '0', '0', '0', '0', '0', '0', '0',
             '0', '1'], seq := 2, event_type := ['t'], payload := [], created_at := 0 }] =
      Except.error ()
    ∧ syncToEvent
        { actor_id := ['0', '0', '0', '0', '0', '0', '0', '0', '0', '0', '0', '0', '0', '0',
            '0', '0', '0', '0', '0', '0', '0', '0', '0', '0', '0', '0', '0', '0', '0', '0',
            '0', '1'], seq := 2, event_type := ['t'], payload := [], created_at := 0 } =
      Except.ok (some { actor_id := [0, 0, 0, 0, 0, 0, 0, 0, 0, 0, 0, 0, 0, 0, 0, 1],
                        seq := 2, event_type := ['t'], payload := [],
                        created_at := 0 }) := by
  constructor
  · rfl
  · rfl

/-! ## Stable sorting (model of Rust's stable `sort_by_key` / SQL `ORDER BY`) -/

/-- Insert `x` after every element already ordered at-or-before it (the
insertion step of a stable insertion sort). -/
def insOne {α : Type} (le : α → α → Bool) (x : α) : List α → List α
  | [] => [x]
  | y :: ys => if le y x then y :: insOne le x ys else x :: y :: ys

/-- Stable insertion sort: processes elements in input order, so elements
comparing equal keep their relative order, exactly as Rust's `sort_by_key`
guarantees. -/
def stableSortBy {α : Type} (le : α → α → Bool) (l : List α) : List α :=
  l.foldl (fun acc x => insOne le x acc) []

theorem insOne_perm {α : Type} (le : α → α → Bool) (x : α) :
    ∀ l : List α, (insOne le x l).Perm (x :: l) := by
  intro l
  induction l with
  | nil => simp [insOne]
  | cons y ys ih =>
    by_cases h : le y x = true
    · simpa [insOne, h] using (ih.cons y).trans (List.Perm.swap x y ys)
    · simp [insOne, h]

theorem stableSortBy_perm {α : Type} (le : α → α → Bool) (l : List α) :
    (stableSortBy le l).Perm l := by
  suffices h : ∀ (l acc : List α), (l.foldl (fun a x => insOne le x a) acc).Perm (acc ++ l) by
    simpa using h l []
  intro l
  induction l with
  | nil => intro acc; simp
  | cons x rest ih =>
    intro acc
    refine (ih (insOne le x acc)).trans ?_
    refine (((insOne_perm le x acc).append_right rest).trans ?_)
    simpa using List.perm_middle.symm

theorem mem_stableSortBy {α : Type} (le : α → α → Bool) (l : List α) (x : α) :
    x ∈ stableSortBy le l ↔ x ∈ l := (stableSortBy_perm le l).mem_iff

/-! ## Vector clocks and sync protocol (`src/storage/mod.rs`, `sync.rs`) -/

/-- Highest sequence number this log has seen for an actor; `0` when the
actor is unknown (`MAX(seq)` of the `GROUP BY` query, with `0` as the
`unwrap_or(0)` default used by every consumer of the clock). -/
def maxSeq (log : List Event) (a : List Nat) : Int :=
  ((log.filter (fun e => decide (e.actor_id = a))).map (fun e => e.seq)).foldl max 0

/-- `Storage::get_vector_clock`: one `(actor, MAX(seq))` entry per distinct
actor of the log. -/
def get_vector_clock (log : List Event) : List (List Nat × Int) :=
  (dedupFirst (log.map (fun e => e.actor_id))).map (fun a => (a, maxSeq log a))

/-- `Storage::get_events_after`: the actor's events with larger sequence
number, ordered by sequence (`ORDER BY seq`). -/
def get_events_after (log : List Event) (a : List Nat) (after_seq : Int) : List Event :=
  stableSortBy (fun e1 e2 => decide (e1.seq ≤ e2.seq))
    (log.filter (fun e => decide (e.actor_id = a) && decide (after_seq < e.seq)))

/-- Lookup of an actor in a received clock with default `0`
(`peer_map.get(..).copied().unwrap_or(0)`; the `HashMap` collected from the
wire list keeps the last entry of a duplicated key, hence the `reverse`). -/
def clockGet (clock : List (List Nat × Int)) (a : List Nat) : Int :=
  (alookup a clock.reverse).getD 0

/-- `process_sync_request` from `sync.rs`: for every actor of our own clock
whose local sequence exceeds the peer's, collect the events the peer is
missing.  (The hex encoding of the 16-byte actor id used on the wire
— `ActorId::to_hex`, always 32 ASCII characters — is injective and is
elided here.) -/
def process_sync_request (log : List Event) (peer_clock : List (List Nat × Int)) : List Event :=
  (get_vector_clock log).foldl
    (fun missing p =>
      if clockGet peer_clock p.1 < p.2 then
        missing ++ get_events_after log p.1 (clockGet peer_clock p.1)
      else missing) []

/-- `process_sync_events` from `sync.rs`: insert each received event
idempotently, counting how many were new. -/
def process_sync_events (log : List Event) (evts : List Event) : Nat × List Event :=
  evts.foldl
    (fun acc e =>
      (if (insert_remote_event acc.2 e).1 then acc.1 + 1 else acc.1,
       (insert_remote_event acc.2 e).2))
    (0, log)

/-- One complete pull exchange: `dst` sends its vector clock
(`create_sync_request`), `src` answers with the missing events
(`process_sync_request`), and `dst` applies them (`process_sync_events`). -/
def pullFrom (dst src : List Event) : Nat × List Event :=
  process_sync_events dst (process_sync_request src (get_vector_clock dst))

/-- Every event's sequence number is at least 1 (spec §3: `seq` starts at 1). -/
def seqLowerBound (log : List Event) : Prop := ∀ e ∈ log, 1 ≤ e.seq

/-- Per-actor sequences have no gaps: every positive sequence number up to a
held one is also held (spec §3: `seq` strictly increasing from 1; local
appends use `MAX(seq)+1` and sync transfers whole suffixes). -/
def downClosed (log : List Event) : Prop :=
  ∀ e ∈ log, ∀ k : Int, 1 ≤ k → k ≤ e.seq →
    ∃ e' ∈ log, e'.actor_id = e.actor_id ∧ e'.seq = k

/-- The `(actor_id, seq)` primary key is unique within the log. -/
def keysNodup (log : List Event) : Prop := (log.map eventKey).Nodup

/-- Two logs never disagree on an event with the same primary key
(spec §3: events are immutable once written). -/
def logCompat (l1 l2 : List Event) : Prop :=
  ∀ e ∈ l1, ∀ e' ∈ l2, eventKey e = eventKey e' → e = e'

section SyncLemmas

theorem foldl_max_init_le : ∀ (l : List Int) (a : Int), a ≤ l.foldl max a := by
  intro l
  induction l with
  | nil => intro a; simp
  | cons x xs ih => intro a; exact le_trans (le_max_left a x) (ih (max a x))

theorem foldl_max_mem_le : ∀ (l : List Int) (a x : Int), x ∈ l → x ≤ l.foldl max a := by
  intro l
  induction l with
  | nil => intro a x hx; simp at hx
  | cons y ys ih =>
    intro a x hx
    rcases List.mem_cons.mp hx with rfl | hx
    · exact le_trans (le_max_right a x) (foldl_max_init_le ys (max a x))
    · exact ih (max a y) x hx

theorem foldl_max_init_or_mem : ∀ (l : List Int) (a : Int),
    l.foldl max a = a ∨ l.foldl max a ∈ l := by
  intro l
  induction l with
  | nil => intro a; simp
  | cons y ys ih =>
    intro a
    rw [List.foldl_cons]
    rcases ih (max a y) with h | h
    · rcases max_cases a y with ⟨hm, _⟩ | ⟨hm, _⟩
      · left; rw [h, hm]
      · right; rw [h, hm]; exact List.mem_cons_self _ _
    · right; exact List.mem_cons_of_mem y h

theorem maxSeq_nonneg (log : List Event) (a : List Nat) : 0 ≤ maxSeq log a :=
  foldl_max_init_le _ 0

theorem maxSeq_ge (log : List Event) (a : List Nat) (e : Event)
    (he : e ∈ log) (ha : e.actor_id = a) : e.seq ≤ maxSeq log a := by
  refine foldl_max_mem_le _ 0 e.seq ?_
  exact List.mem_map_of_mem _ (List.mem_filter.mpr ⟨he, by simp [ha]⟩)

theorem maxSeq_attained (log : List Event) (a : List Nat) :
    maxSeq log a = 0 ∨ ∃ e ∈ log, e.actor_id = a ∧ e.seq = maxSeq log a := by
  rcases foldl_max_init_or_mem
      ((log.filter (fun e => decide (e.actor_id = a))).map (fun e => e.seq)) 0 with h | h
  · left; exact h
  · right
    obtain ⟨e, hef, hseq⟩ := List.mem_map.mp h
    obtain ⟨hel, hea⟩ := List.mem_filter.mp hef
    exact ⟨e, hel, by simpa using hea, hseq⟩

theorem maxSeq_congr (l1 l2 : List Event) (hmem : ∀ x, x ∈ l1 ↔ x ∈ l2) (a : List Nat) :
    maxSeq l1 a = maxSeq l2 a := by
  have hle : ∀ (u v : List Event), (∀ x, x ∈ u → x ∈ v) → maxSeq u a ≤ maxSeq v a := by
    intro u v hsub
    rcases maxSeq_attained u a with h | ⟨e, he, hea, hseq⟩
    · rw [h]; exact maxSeq_nonneg v a
    · rw [← hseq]; exact maxSeq_ge v a e (hsub e he) hea
  exact le_antisymm (hle l1 l2 fun x => (hmem x).mp) (hle l2 l1 fun x => (hmem x).mpr)

theorem mem_dedupFirstAux {α : Type} [DecidableEq α] :
    ∀ (l seen : List α) (x : α), x ∈ dedupFirstAux l seen ↔ x ∈ l ∧ x ∉ seen := by
  intro l
  induction l with
  | nil => intro seen x; simp [dedupFirstAux]
  | cons c rest ih =>
    intro seen x
    by_cases hc : c ∈ seen
    · rw [dedupFirstAux, if_pos hc, ih]
      constructor
      · rintro ⟨hx, hxs⟩; exact ⟨List.mem_cons_of_mem c hx, hxs⟩
      · rintro ⟨hx, hxs⟩
        rcases List.mem_cons.mp hx with rfl | hx
        · exact absurd hc hxs
        · exact ⟨hx, hxs⟩
    · rw [dedupFirstAux, if_neg hc]
      constructor
      · intro hx
        rcases List.mem_cons.mp hx with rfl | hx
        · exact ⟨List.mem_cons_self _ _, hc⟩
        · obtain ⟨h1, h2⟩ := (ih (c :: seen) x).mp hx
          exact ⟨List.mem_cons_of_mem c h1, fun hs => h2 (List.mem_cons_of_mem c hs)⟩
      · rintro ⟨hx, hxs⟩
        rcases List.mem_cons.mp hx with rfl | hx
        · exact List.mem_cons_self _ _
        · by_cases hxc : x = c
          · subst hxc; exact List.mem_cons_self _ _
          · exact List.mem_cons_of_mem c ((ih (c :: seen) x).mpr
              ⟨hx, by simp [hxc, hxs]⟩)

theorem mem_dedupFirst {α : Type} [DecidableEq α] (l : List α) (x : α) :
    x ∈ dedupFirst l ↔ x ∈ l := by
  simp [dedupFirst, mem_dedupFirstAux]

theorem alookup_map_graph {α β : Type} [DecidableEq α] (f : α → β) :
    ∀ (l : List α) (k : α),
      alookup k (l.map (fun a => (a, f a))) = if k ∈ l then some (f k) else none := by
  intro l
  induction l with
  | nil => intro k; simp [alookup]
  | cons a rest ih =>
    intro k
    by_cases hak : a = k
    · subst hak; simp [alookup]
    · simp only [List.map_cons, alookup, if_neg hak, ih, List.mem_cons]
      by_cases hk : k ∈ rest <;> simp [hk, Ne.symm hak, hak]

theorem clockGet_vector_clock (log : List Event) (a : List Nat) :
    clockGet (get_vector_clock log) a = maxSeq log a := by
  unfold clockGet get_vector_clock
  rw [← List.map_reverse, alookup_map_graph]
  by_cases ha : a ∈ (dedupFirst (log.map (fun e => e.actor_id))).reverse
  · simp [ha]
  · simp only [ha, if_neg, if_false, Option.getD_none]
    have hnm : ∀ e ∈ log, ¬(e.actor_id = a) := by
      intro e he hea
      exact ha (List.mem_reverse.mpr ((mem_dedupFirst _ _).mpr
        (List.mem_map.mpr ⟨e, he, hea⟩)))
    have hfe : log.filter (fun e => decide (e.actor_id = a)) = [] := by
      refine List.filter_eq_nil_iff.mpr ?_
      intro e he
      simpa using hnm e he
    simp [maxSeq, hfe]

theorem mem_get_events_after (log : List Event) (a : List Nat) (s : Int) (e : Event) :
    e ∈ get_events_after log a s ↔ e ∈ log ∧ e.actor_id = a ∧ s < e.seq := by
  rw [get_events_after, mem_stableSortBy, List.mem_filter]
  simp

theorem mem_process_sync_request (log : List Event) (clock : List (List Nat × Int)) (e : Event) :
    e ∈ process_sync_request log clock ↔ e ∈ log ∧ clockGet clock e.actor_id < e.seq := by
  have hfold : ∀ (entries : List (List Nat × Int)) (acc : List Event),
      e ∈ entries.foldl
          (fun missing p =>
            if clockGet clock p.1 < p.2 then
              missing ++ get_events_after log p.1 (clockGet clock p.1)
            else missing) acc ↔
        e ∈ acc ∨ ∃ p ∈ entries, clockGet clock p.1 < p.2 ∧
          e ∈ get_events_after log p.1 (clockGet clock p.1) := by
    intro entries
    induction entries with
    | nil => intro acc; simp
    | cons p rest ih =>
      intro acc
      by_cases hp : clockGet clock p.1 < p.2
      · rw [List.foldl_cons, if_pos hp, ih]
        constructor
        · rintro (hacc | hrest)
          · rcases List.mem_append.mp hacc with h | h
            · exact Or.inl h
            · exact Or.inr ⟨p, List.mem_cons_self _ _, hp, h⟩
          · obtain ⟨q, hq, h1, h2⟩ := hrest
            exact Or.inr ⟨q, List.mem_cons_of_mem p hq, h1, h2⟩
        · rintro (hacc | ⟨q, hq, h1, h2⟩)
          · exact Or.inl (List.mem_append.mpr (Or.inl hacc))
          · rcases List.mem_cons.mp hq with rfl | hq
            · exact Or.inl (List.mem_append.mpr (Or.inr h2))
            · exact Or.inr ⟨q, hq, h1, h2⟩
      · rw [List.foldl_cons, if_neg hp, ih]
        constructor
        · rintro (hacc | ⟨q, hq, h1, h2⟩)
          · exact Or.inl hacc
          · exact Or.inr ⟨q, List.mem_cons_of_mem p hq, h1, h2⟩
        · rintro (hacc | ⟨q, hq, h1, h2⟩)
          · exact Or.inl hacc
          · rcases List.mem_cons.mp hq with rfl | hq
            · exact absurd h1 hp
            · exact Or.inr ⟨q, hq, h1, h2⟩
  rw [process_sync_request, hfold]
  constructor
  · rintro (h | ⟨p, hp, h1, h2⟩)
    · simp at h
    · obtain ⟨hel, hea, hseq⟩ := (mem_get_events_after log p.1 _ e).mp h2
      exact ⟨hel, by rw [hea]; exact hseq⟩
  · rintro ⟨hel, hseq⟩
    refine Or.inr ⟨(e.actor_id, maxSeq log e.actor_id), ?_, ?_, ?_⟩
    · exact List.mem_map.mpr ⟨e.actor_id,
        (mem_dedupFirst _ _).mpr (List.mem_map.mpr ⟨e, hel, rfl⟩), rfl⟩
    · exact lt_of_lt_of_le hseq (maxSeq_ge log e.actor_id e hel rfl)
    · exact (mem_get_events_after log e.actor_id _ e).mpr ⟨hel, rfl, hseq⟩

end SyncLemmas

section MergeLemmas

theorem keyPresent_iff (log : List Event) (a : List Nat) (sq : Int) :
    keyPresent log a sq = true ↔ ∃ e ∈ log, e.actor_id = a ∧ e.seq = sq := by
  simp [keyPresent, List.any_eq_true]

theorem logCompat_self_of_keysNodup (log : List Event) (h : keysNodup log) :
    logCompat log log := fun _ he _ he' hk =>
  List.inj_on_of_nodup_map h he he' hk

theorem logCompat_of_subset (l' l : List Event) (hsub : ∀ x, x ∈ l' → x ∈ l)
    (h : logCompat l l) : logCompat l' l' :=
  fun e he e' he' hk => h e (hsub e he) e' (hsub e' he') hk

theorem insert_keysNodup (log : List Event) (e : Event) (h : keysNodup log) :
    keysNodup (insert_remote_event log e).2 := by
  unfold insert_remote_event
  cases hk : keyPresent log e.actor_id e.seq with
  | true => simpa using h
  | false =>
    simp only [Bool.false_eq_true, if_neg, if_false]
    unfold keysNodup at h ⊢
    rw [List.map_append, List.nodup_append]
    refine ⟨h, by simp, ?_⟩
    intro k hk1 hk2
    simp only [List.map_cons, List.map_nil, List.mem_singleton] at hk2
    obtain ⟨e'', he'', hke⟩ := List.mem_map.mp hk1
    subst hk2
    have : keyPresent log e.actor_id e.seq = true := by
      refine (keyPresent_iff log e.actor_id e.seq).mpr ⟨e'', he'', ?_, ?_⟩
      · exact congrArg Prod.fst hke
      · exact congrArg Prod.snd hke
    rw [this] at hk
    exact Bool.noConfusion hk

/-- The count component of the `process_sync_events` fold never influences
the resulting log. -/
theorem process_sync_events_snd_indep :
    ∀ (evts : List Event) (n : Nat) (log : List Event),
      (evts.foldl
          (fun acc e =>
            (if (insert_remote_event acc.2 e).1 then acc.1 + 1 else acc.1,
             (insert_remote_event acc.2 e).2)) (n, log)).2 =
        (process_sync_events log evts).2 := by
  intro evts
  induction evts with
  | nil => intro n log; rfl
  | cons e rest ih =>
    intro n log
    show (rest.foldl _
        (if (insert_remote_event log e).1 then n + 1 else n, (insert_remote_event log e).2)).2 = _
    rw [ih _ (insert_remote_event log e).2]
    show _ = (rest.foldl _
        (if (insert_remote_event log e).1 then 0 + 1 else 0, (insert_remote_event log e).2)).2
    rw [ih _ (insert_remote_event log e).2]

theorem process_sync_events_cons_snd (log : List Event) (e : Event) (rest : List Event) :
    (process_sync_events log (e :: rest)).2 =
      (process_sync_events (insert_remote_event log e).2 rest).2 := by
  show (rest.foldl _
      (if (insert_remote_event log e).1 then 0 + 1 else 0, (insert_remote_event log e).2)).2 = _
  rw [process_sync_events_snd_indep]

theorem mem_process_sync_events :
    ∀ (evts log : List Event), logCompat (log ++ evts) (log ++ evts) →
      ∀ x, x ∈ (process_sync_events log evts).2 ↔ (x ∈ log ∨ x ∈ evts) := by
  intro evts
  induction evts with
  | nil => intro log _ x; simp [process_sync_events]
  | cons e rest ih =>
    intro log hcompat x
    rw [process_sync_events_cons_snd]
    cases hk : keyPresent log e.actor_id e.seq with
    | true =>
      have hins : (insert_remote_event log e).2 = log := by
        simp [insert_remote_event, hk]
      rw [hins]
      have hcompat' : logCompat (log ++ rest) (log ++ rest) := by
        refine logCompat_of_subset _ _ ?_ hcompat
        intro y hy
        rcases List.mem_append.mp hy with hy | hy
        · exact List.mem_append.mpr (Or.inl hy)
        · exact List.mem_append.mpr (Or.inr (List.mem_cons_of_mem e hy))
      have hel : e ∈ log := by
        obtain ⟨e'', he'', hea, hes⟩ := (keyPresent_iff log e.actor_id e.seq).mp hk
        have : e'' = e := hcompat e'' (List.mem_append.mpr (Or.inl he''))
          e (List.mem_append.mpr (Or.inr (List.mem_cons_self e rest)))
          (by simp [eventKey, hea, hes])
        rwa [this] at he''
      rw [ih log hcompat' x]
      constructor
      · rintro (hx | hx)
        · exact Or.inl hx
        · exact Or.inr (List.mem_cons_of_mem e hx)
      · rintro (hx | hx)
        · exact Or.inl hx
        · rcases List.mem_cons.mp hx with rfl | hx
          · exact Or.inl hel
          · exact Or.inr hx
    | false =>
      have hins : (insert_remote_event log e).2 = log ++ [e] := by
        simp [insert_remote_event, hk]
      rw [hins]
      have hcompat' :
          logCompat ((log ++ [e]) ++ rest) ((log ++ [e]) ++ rest) := by
        refine logCompat_of_subset _ _ ?_ hcompat
        intro y hy
        rcases List.mem_append.mp hy with hy | hy
        · rcases List.mem_append.mp hy with hy | hy
          · exact List.mem_append.mpr (Or.inl hy)
          · simp only [List.mem_singleton] at hy
            subst hy
            exact List.mem_append.mpr (Or.inr (List.mem_cons_self y rest))
        · exact List.mem_append.mpr (Or.inr (List.mem_cons_of_mem e hy))
      rw [ih (log ++ [e]) hcompat' x]
      constructor
      · rintro (hx | hx)
        · rcases List.mem_append.mp hx with hx | hx
          · exact Or.inl hx
          · simp only [List.mem_singleton] at hx
            subst hx
            exact Or.inr (List.mem_cons_self x rest)
        · exact Or.inr (List.mem_cons_of_mem e hx)
      · rintro (hx | hx)
        · exact Or.inl (List.mem_append.mpr (Or.inl hx))
        · rcases List.mem_cons.mp hx with rfl | hx
          · exact Or.inl (List.mem_append.mpr (Or.inr (List.mem_singleton.mpr rfl)))
          · exact Or.inr hx

theorem process_sync_events_keysNodup :
    ∀ (evts log : List Event), keysNodup log → keysNodup (process_sync_events log evts).2 := by
  intro evts
  induction evts with
  | nil => intro log h; exact h
  | cons e rest ih =>
    intro log h
    rw [process_sync_events_cons_snd]
    exact ih _ (insert_keysNodup log e h)

/-- A source event whose sequence does not exceed the destination's clock
for its actor is already in the destination (downward closure plus event
immutability). -/
theorem absorbed (A B : List Event) (hAdown : downClosed A) (hBlb : seqLowerBound B)
    (hAB : logCompat A B) (x : Event) (hx : x ∈ B)
    (hle : x.seq ≤ maxSeq A x.actor_id) : x ∈ A := by
  rcases maxSeq_attained A x.actor_id with h0 | ⟨w, hw, hwa, hws⟩
  · exfalso
    have h1 : (1 : Int) ≤ x.seq := hBlb x hx
    omega
  · obtain ⟨e', he', hea, hes⟩ := hAdown w hw x.seq (hBlb x hx) (by omega)
    have : e' = x := hAB e' he' x hx (by simp [eventKey, hea, hwa, hes])
    rwa [← this]

end MergeLemmas

/-- C2.  For two well-formed, mutually compatible event logs, one
A-pulls-from-B exchange followed by one B-pulls-from-A exchange leaves both
logs holding exactly the union of the original events, and repeating the
exchange in either direction inserts 0 further events. -/
theorem sync_round_trip_converges (A B : List Event)
    (hAlb : seqLowerBound A) (hAdown : downClosed A) (hAkeys : keysNodup A)
    (hBlb : seqLowerBound B) (hBdown : downClosed B) (hBkeys : keysNodup B)
    (hAB : logCompat A B) :
    (∀ e, e ∈ (pullFrom A B).2 ↔ (e ∈ A ∨ e ∈ B))
    ∧ (∀ e, e ∈ (pullFrom B (pullFrom A B).2).2 ↔ (e ∈ A ∨ e ∈ B))
    ∧ (pullFrom (pullFrom A B).2 (pullFrom B (pullFrom A B).2).2).1 = 0
    ∧ (pullFrom (pullFrom B (pullFrom A B).2).2 (pullFrom A B).2).1 = 0 := by
  have hAA : logCompat A A := logCompat_self_of_keysNodup A hAkeys
  have hBB : logCompat B B := logCompat_self_of_keysNodup B hBkeys
  have hBA : logCompat B A := fun e he e' he' hk => (hAB e' he' e he hk.symm).symm
  have hsentAB : ∀ x, x ∈ process_sync_request B (get_vector_clock A) ↔
      (x ∈ B ∧ maxSeq A x.actor_id < x.seq) := by
    intro x
    rw [mem_process_sync_request, clockGet_vector_clock]
  have hcompatAsent :
      logCompat (A ++ process_sync_request B (get_vector_clock A))
        (A ++ process_sync_request B (get_vector_clock A)) := by
    intro x hx y hy hk
    have hx' : x ∈ A ∨ x ∈ B := by
      rcases List.mem_append.mp hx with h | h
      · exact Or.inl h
      · exact Or.inr ((hsentAB x).mp h).1
    have hy' : y ∈ A ∨ y ∈ B := by
      rcases List.mem_append.mp hy with h | h
      · exact Or.inl h
      · exact Or.inr ((hsentAB y).mp h).1
    rcases hx' with hx' | hx' <;> rcases hy' with hy' | hy'
    · exact hAA x hx' y hy' hk
    · exact hAB x hx' y hy' hk
    · exact hBA x hx' y hy' hk
    · exact hBB x hx' y hy' hk
  have hA1mem : ∀ x, x ∈ (pullFrom A B).2 ↔ (x ∈ A ∨ x ∈ B) := by
    intro x
    rw [show (pullFrom A B).2 =
        (process_sync_events A (process_sync_request B (get_vector_clock A))).2 from rfl,
      mem_process_sync_events _ _ hcompatAsent]
    constructor
    · rintro (h | h)
      · exact Or.inl h
      · exact Or.inr ((hsentAB x).mp h).1
    · rintro (h | h)
      · exact Or.inl h
      · by_cases hle : x.seq ≤ maxSeq A x.actor_id
        · exact Or.inl (absorbed A B hAdown hBlb hAB x h hle)
        · exact Or.inr ((hsentAB x).mpr ⟨h, by omega⟩)
  have hA1lb : seqLowerBound (pullFrom A B).2 := by
    intro e he
    rcases (hA1mem e).mp he with h | h
    · exact hAlb e h
    · exact hBlb e h
  have hA1down : downClosed (pullFrom A B).2 := by
    intro e he k hk1 hk2
    rcases (hA1mem e).mp he with h | h
    · obtain ⟨e', he', hea, hes⟩ := hAdown e h k hk1 hk2
      exact ⟨e', (hA1mem e').mpr (Or.inl he'), hea, hes⟩
    · obtain ⟨e', he', hea, hes⟩ := hBdown e h k hk1 hk2
      exact ⟨e', (hA1mem e').mpr (Or.inr he'), hea, hes⟩
  have hA1keys : keysNodup (pullFrom A B).2 :=
    process_sync_events_keysNodup _ A hAkeys
  have hA1A1 : logCompat (pullFrom A B).2 (pullFrom A B).2 :=
    logCompat_self_of_keysNodup _ hA1keys
  have hA1B : logCompat (pullFrom A B).2 B := by
    intro e he e' he' hk
    rcases (hA1mem e).mp he with h | h
    · exact hAB e h e' he' hk
    · exact hBB e h e' he' hk
  have hBA1 : logCompat B (pullFrom A B).2 :=
    fun e he e' he' hk => (hA1B e' he' e he hk.symm).symm
  have hA1A : logCompat (pullFrom A B).2 A := by
    intro e he e' he' hk
    rcases (hA1mem e).mp he with h | h
    · exact hAA e h e' he' hk
    · exact hBA e h e' he' hk
  have hsent2 : ∀ x, x ∈ process_sync_request (pullFrom A B).2 (get_vector_clock B) ↔
      (x ∈ (pullFrom A B).2 ∧ maxSeq B x.actor_id < x.seq) := by
    intro x
    rw [mem_process_sync_request, clockGet_vector_clock]
  have hcompatBsent2 :
      logCompat (B ++ process_sync_request (pullFrom A B).2 (get_vector_clock B))
        (B ++ process_sync_request (pullFrom A B).2 (get_vector_clock B)) := by
    intro x hx y hy hk
    have hx' : x ∈ B ∨ x ∈ (pullFrom A B).2 := by
      rcases List.mem_append.mp hx with h | h
      · exact Or.inl h
      · exact Or.inr ((hsent2 x).mp h).1
    have hy' : y ∈ B ∨ y ∈ (pullFrom A B).2 := by
      rcases List.mem_append.mp hy with h | h
      · exact Or.inl h
      · exact Or.inr ((hsent2 y).mp h).1
    rcases hx' with hx' | hx' <;> rcases hy' with hy' | hy'
    · exact hBB x hx' y hy' hk
    · exact hBA1 x hx' y hy' hk
    · exact hA1B x hx' y hy' hk
    · exact hA1A1 x hx' y hy' hk
  have hB1mem : ∀ x, x ∈ (pullFrom B (pullFrom A B).2).2 ↔ (x ∈ A ∨ x ∈ B) := by
    intro x
    rw [show (pullFrom B (pullFrom A B).2).2 =
        (process_sync_events B
          (process_sync_request (pullFrom A B).2 (get_vector_clock B))).2 from rfl,
      mem_process_sync_events _ _ hcompatBsent2]
    constructor
    · rintro (h | h)
      · exact Or.inr h
      · exact (hA1mem x).mp ((hsent2 x).mp h).1
    · rintro (h | h)
      · by_cases hle : x.seq ≤ maxSeq B x.actor_id
        · exact Or.inl (absorbed B A hBdown hAlb hBA x h hle)
        · exact Or.inr ((hsent2 x).mpr ⟨(hA1mem x).mpr (Or.inl h), by omega⟩)
      · exact Or.inl h
  have hsame : ∀ x, x ∈ (pullFrom B (pullFrom A B).2).2 ↔ x ∈ (pullFrom A B).2 :=
    fun x => (hB1mem x).trans (hA1mem x).symm
  have hmaxeq : ∀ a, maxSeq (pullFrom B (pullFrom A B).2).2 a = maxSeq (pullFrom A B).2 a :=
    maxSeq_congr _ _ hsame
  have hsent3 :
      process_sync_request (pullFrom B (pullFrom A B).2).2
        (get_vector_clock (pullFrom A B).2) = [] := by
    refine List.eq_nil_iff_forall_not_mem.mpr ?_
    intro x hx
    rw [mem_process_sync_request, clockGet_vector_clock] at hx
    obtain ⟨hxB1, hlt⟩ := hx
    have h1 : x.seq ≤ maxSeq (pullFrom B (pullFrom A B).2).2 x.actor_id :=
      maxSeq_ge _ _ x hxB1 rfl
    rw [hmaxeq x.actor_id] at h1
    omega
  have hsent4 :
      process_sync_request (pullFrom A B).2
        (get_vector_clock (pullFrom B (pullFrom A B).2).2) = [] := by
    refine List.eq_nil_iff_forall_not_mem.mpr ?_
    intro x hx
    rw [mem_process_sync_request, clockGet_vector_clock] at hx
    obtain ⟨hxA1, hlt⟩ := hx
    have h1 : x.seq ≤ maxSeq (pullFrom A B).2 x.actor_id :=
      maxSeq_ge _ _ x hxA1 rfl
    rw [hmaxeq x.actor_id] at hlt
    omega
  refine ⟨hA1mem, hB1mem, ?_, ?_⟩
  · show (process_sync_events (pullFrom A B).2
      (process_sync_request (pullFrom B (pullFrom A B).2).2
        (get_vector_clock (pullFrom A B).2))).1 = 0
    rw [hsent3]
    rfl
  · show (process_sync_events (pullFrom B (pullFrom A B).2).2
      (process_sync_request (pullFrom A B).2
        (get_vector_clock (pullFrom B (pullFrom A B).2).2))).1 = 0
    rw [hsent4]
    rfl

/-- Concrete instance of `sync_round_trip_converges`: after A pulls from B,
A holds B's event. -/
theorem sync_round_trip_converges_witness :
    ({ actor_id := [2], seq := 1, event_type := ['b'], payload := [],
       created_at := 0 : Event }) ∈
      (pullFrom
        [{ actor_id := [1], seq := 1, event_type := ['a'], payload := [], created_at := 0 }]
        [{ actor_id := [2], seq := 1, event_type := ['b'], payload := [],
           created_at := 0 }]).2 :=
  ((sync_round_trip_converges
      [{ actor_id := [1], seq := 1, event_type := ['a'], payload := [], created_at := 0 }]
      [{ actor_id := [2], seq := 1, event_type := ['b'], payload := [], created_at := 0 }]
      (by unfold seqLowerBound; decide)
      (by
        intro e he k hk1 hk2
        simp only [List.mem_singleton] at he
        subst he
        have hk2' : k ≤ 1 := hk2
        have hk : k = 1 := le_antisymm hk2' hk1
        subst hk
        exact ⟨_, List.mem_singleton.mpr rfl, rfl, rfl⟩)
      (by unfold keysNodup; decide)
      (by unfold seqLowerBound; decide)
      (by
        intro e he k hk1 hk2
        simp only [List.mem_singleton] at he
        subst he
        have hk2' : k ≤ 1 := hk2
        have hk : k = 1 := le_antisymm hk2' hk1
        subst hk
        exact ⟨_, List.mem_singleton.mpr rfl, rfl, rfl⟩)
      (by unfold keysNodup; decide)
      (by
        intro e he e' he' hkey
        simp only [List.mem_singleton] at he he'
        subst he
        subst he'
        exact absurd hkey (by decide))).1 _).mpr
    (Or.inr (List.mem_singleton.mpr rfl))

/-! ## Elo rating engine (`src/stats/mod.rs`)

The Rust engine computes with `f64`; it is modelled here with exact real
arithmetic (`ℝ`, with `10^x` as `Real.rpow`). -/

/-- `DEFAULT_K` from `stats/mod.rs`. -/
noncomputable def DEFAULT_K : ℝ := 32

/-- `DEFAULT_ELO` from `stats/mod.rs`. -/
noncomputable def DEFAULT_ELO : ℝ := 1200

/-- `MatchResult` from `stats/mod.rs`. -/
structure MatchResult : Type where
  match_id : Int
  scores : List (Str × Nat)
  host_actor_id : Str
  completed : Bool
deriving DecidableEq, Repr

/-- The `EloCalculator.ratings` map. -/
abbrev Ratings := List (Str × ℝ)

/-- `EloCalculator::rating`: a player's rating, defaulting to 1200. -/
noncomputable def rating (rs : Ratings) (p : Str) : ℝ := (alookup p rs).getD DEFAULT_ELO

/-- `EloCalculator::expected_score`. -/
noncomputable def expected_score (rating_a rating_b : ℝ) : ℝ :=
  1 / (1 + (10 : ℝ) ^ ((rating_b - rating_a) / 400))

/-- The `match score_a.cmp(score_b)` arm of `process_match`. -/
noncomputable def actualScore (score_a score_b : Nat) : ℝ :=
  if score_b < score_a then 1 else if score_a = score_b then 1 / 2 else 0

/-- The inner `for j` loop of `process_match`: player `i`'s accumulated
rating change over every opponent `j ≠ i`, read off the pre-match
`player_ratings` triples. -/
noncomputable def changeFor (k_adjusted : ℝ) (prs : List (Str × Nat × ℝ)) (i : Nat) : ℝ :=
  ((List.range prs.length).filter (fun j => j ≠ i)).foldl
    (fun acc j =>
      acc + k_adjusted *
        (actualScore (prs.getD i default).2.1 (prs.getD j default).2.1 -
          expected_score (prs.getD i default).2.2 (prs.getD j default).2.2)) 0

/-- The outer `for i` loop of `process_match`: the `rating_changes` map,
inserted in player order (a duplicated handle keeps its last computed
change, as with `HashMap::insert`). -/
noncomputable def buildChanges (k_adjusted : ℝ) (prs : List (Str × Nat × ℝ)) :
    List (Str × ℝ) :=
  (List.range prs.length).foldl
    (fun m i => upsert (prs.getD i default).1 (changeFor k_adjusted prs i) m) []

/-- The final loop of `process_match`: apply every accumulated change on top
of the current rating. -/
noncomputable def applyChanges (rs : Ratings) (changes : List (Str × ℝ)) : Ratings :=
  changes.foldl (fun acc pc => upsert pc.1 (rating acc pc.1 + pc.2) acc) rs

/-- `EloCalculator::process_match`: ignore incomplete or single-player
matches, then apply all pairwise rating changes simultaneously. -/
noncomputable def process_match (k_factor : ℝ) (rs : Ratings) (result : MatchResult) :
    Ratings :=
  if result.completed = false ∨ result.scores.length < 2 then rs
  else
    applyChanges rs
      (buildChanges (k_factor / ((result.scores.length - 1 : Nat) : ℝ))
        (result.scores.map (fun sc => (sc.1, sc.2, rating rs sc.1))))

/-- `MatchResult::match_id` comparison used by `replay_matches`'s
`sort_by_key`. -/
def matchLE (a b : MatchResult) : Bool := decide (a.match_id ≤ b.match_id)

/-- `EloCalculator::replay_matches`: stable-sort by `match_id`, clear the
ratings, fold `process_match`. -/
noncomputable def replay_matches (k_factor : ℝ) (ms : List MatchResult) : Ratings :=
  (stableSortBy matchLE ms).foldl (process_match k_factor) []

section EloLemmas

theorem alookup_eq_none {κ β : Type} [DecidableEq κ] (k : κ) :
    ∀ l : List (κ × β), alookup k l = none ↔ ∀ pr ∈ l, pr.1 ≠ k := by
  intro l
  induction l with
  | nil => simp [alookup]
  | cons pr rest ih =>
    by_cases hk : pr.1 = k
    · simp [alookup, hk]
    · simp [alookup, hk, ih]

theorem alookup_upsert {κ β : Type} [DecidableEq κ] (k q : κ) (v : β) :
    ∀ l : List (κ × β),
      alookup k (upsert q v l) = if q = k then some v else alookup k l := by
  intro l
  induction l with
  | nil => simp [upsert, alookup]
  | cons pr rest ih =>
    by_cases hq : pr.1 = q
    · simp only [upsert, if_pos hq, alookup]
      by_cases hk : q = k
      · simp [hk]
      · rw [if_neg (show ¬pr.1 = k by rw [hq]; exact hk), if_neg hk]
    · simp only [upsert, if_neg hq, alookup]
      by_cases hk2 : pr.1 = k
      · rw [if_pos hk2, if_pos hk2,
          if_neg (show ¬q = k by intro h; exact hq (hk2.trans h.symm))]
      · rw [if_neg hk2, if_neg hk2, ih]

theorem rating_upsert (q : Str) (v : ℝ) (rs : Ratings) (p : Str) :
    rating (upsert q v rs) p = if q = p then v else rating rs p := by
  unfold rating
  rw [alookup_upsert]
  by_cases h : q = p <;> simp [h]

theorem upsert_append_of_none {κ β : Type} [DecidableEq κ] (k : κ) (v : β) :
    ∀ l : List (κ × β), alookup k l = none → upsert k v l = l ++ [(k, v)] := by
  intro l
  induction l with
  | nil => intro _; rfl
  | cons pr rest ih =>
    intro h
    have hne : pr.1 ≠ k := ((alookup_eq_none k (pr :: rest)).mp h) pr (List.mem_cons_self _ _)
    have hrest : alookup k rest = none := by
      refine (alookup_eq_none k rest).mpr ?_
      intro q hq
      exact ((alookup_eq_none k (pr :: rest)).mp h) q (List.mem_cons_of_mem pr hq)
    simp [upsert, hne, ih hrest]

theorem foldl_upsert_fresh {β : Type} :
    ∀ (ps : List (Str × β)) (m : List (Str × β)),
      (∀ p ∈ ps, alookup p.1 m = none) → (ps.map Prod.fst).Nodup →
      ps.foldl (fun acc pc => upsert pc.1 pc.2 acc) m = m ++ ps := by
  intro ps
  induction ps with
  | nil => intro m _ _; simp
  | cons pc rest ih =>
    intro m hfresh hnd
    rw [List.foldl_cons, upsert_append_of_none pc.1 pc.2 m (hfresh pc (List.mem_cons_self _ _))]
    rw [List.map_cons, List.nodup_cons] at hnd
    rw [ih (m ++ [pc]) ?_ hnd.2]
    · simp
    · intro q hq
      refine (alookup_eq_none q.1 (m ++ [pc])).mpr ?_
      intro pr hpr
      rcases List.mem_append.mp hpr with hpr | hpr
      · exact ((alookup_eq_none q.1 m).mp (hfresh q (List.mem_cons_of_mem pc hq))) pr hpr
      · simp only [List.mem_singleton] at hpr
        subst hpr
        intro hc
        exact hnd.1 (by rw [hc]; exact List.mem_map_of_mem Prod.fst hq)

/-- With duplicate-free player names, the `rating_changes` map is exactly
one entry per player, in player order. -/
theorem buildChanges_eq (k_adjusted : ℝ) (prs : List (Str × Nat × ℝ))
    (hnd : (prs.map Prod.fst).Nodup) :
    buildChanges k_adjusted prs =
      (List.range prs.length).map
        (fun i => ((prs.getD i default).1, changeFor k_adjusted prs i)) := by
  unfold buildChanges
  rw [show (List.range prs.length).foldl
        (fun m i => upsert (prs.getD i default).1 (changeFor k_adjusted prs i) m) [] =
      ((List.range prs.length).map
        (fun i => ((prs.getD i default).1, changeFor k_adjusted prs i))).foldl
        (fun acc pc => upsert pc.1 pc.2 acc) [] by rw [List.foldl_map]]
  rw [foldl_upsert_fresh _ [] (by intro p _; rfl) ?_]
  · simp
  · have hkeys : (((List.range prs.length).map
        (fun i => ((prs.getD i default).1, changeFor k_adjusted prs i))).map Prod.fst) =
        prs.map Prod.fst := by
      refine List.ext_getElem (by simp) ?_
      intro i h1 h2
      simp only [List.getElem_map, List.getElem_range]
      rw [List.getD_eq_getElem prs default (by simpa using h2)]
    rw [hkeys]
    exact hnd

/-- Applying a duplicate-free change list adds each player's change to that
player's rating and leaves everyone else alone. -/
theorem applyChanges_rating :
    ∀ (changes : List (Str × ℝ)) (rs : Ratings),
      (changes.map Prod.fst).Nodup → ∀ p,
        rating (applyChanges rs changes) p =
          (match alookup p changes with
            | some c => rating rs p + c
            | none => rating rs p) := by
  intro changes
  induction changes with
  | nil => intro rs _ p; simp [applyChanges, alookup]
  | cons qc rest ih =>
    intro rs hnd p
    rw [List.map_cons, List.nodup_cons] at hnd
    have hstep : applyChanges rs (qc :: rest) =
        applyChanges (upsert qc.1 (rating rs qc.1 + qc.2) rs) rest := rfl
    rw [hstep, ih _ hnd.2 p]
    by_cases hpq : qc.1 = p
    · subst hpq
      have hnone : alookup qc.1 rest = none := by
        refine (alookup_eq_none qc.1 rest).mpr ?_
        intro pr hpr hc
        exact hnd.1 (by rw [← hc]; exact List.mem_map_of_mem Prod.fst hpr)
      rw [hnone]
      show rating (upsert qc.1 (rating rs qc.1 + qc.2) rs) qc.1 = _
      rw [rating_upsert]
      simp [alookup]
    · have halook : alookup p (qc :: rest) = alookup p rest := by
        simp [alookup, hpq]
      rw [halook, rating_upsert]
      simp [hpq]

theorem foldl_add_eq_sum (g : Nat → ℝ) :
    ∀ (l : List Nat) (a : ℝ), l.foldl (fun acc j => acc + g j) a = a + (l.map g).sum := by
  intro l
  induction l with
  | nil => intro a; simp
  | cons x xs ih => intro a; rw [List.foldl_cons, ih, List.map_cons, List.sum_cons]; ring

theorem sum_filter_eq_sum_ite (g : Nat → ℝ) (p : Nat → Bool) :
    ∀ l : List Nat, ((l.filter p).map g).sum = (l.map (fun x => if p x then g x else 0)).sum := by
  intro l
  induction l with
  | nil => simp
  | cons x xs ih =>
    by_cases hp : p x
    · simp [List.filter_cons, hp, ih]
    · simp [List.filter_cons, hp, ih]

theorem list_range_map_sum (h : Nat → ℝ) :
    ∀ n : Nat, ((List.range n).map h).sum = ∑ j in Finset.range n, h j := by
  intro n
  induction n with
  | zero => simp
  | succ n ih => rw [List.range_succ, List.map_append, List.sum_append, Finset.sum_range_succ, ih]; simp

/-- `changeFor` as a `Finset` sum with the diagonal zeroed out. -/
theorem changeFor_eq_sum (k_adjusted : ℝ) (prs : List (Str × Nat × ℝ)) (i : Nat) :
    changeFor k_adjusted prs i =
      ∑ j in Finset.range prs.length,
        (if j = i then 0 else
          k_adjusted *
            (actualScore (prs.getD i default).2.1 (prs.getD j default).2.1 -
              expected_score (prs.getD i default).2.2 (prs.getD j default).2.2)) := by
  unfold changeFor
  rw [foldl_add_eq_sum, zero_add, sum_filter_eq_sum_ite, list_range_map_sum]
  refine Finset.sum_congr rfl ?_
  intro j _
  by_cases hj : j = i <;> simp [hj]

theorem actualScore_add_symm (s t : Nat) : actualScore s t + actualScore t s = 1 := by
  unfold actualScore
  rcases Nat.lt_trichotomy s t with h | h | h
  · rw [if_neg (by omega), if_neg (by omega), if_pos h]
    norm_num
  · subst h
    rw [if_neg (by omega), if_pos rfl]
    norm_num
  · rw [if_pos h, if_neg (by omega), if_neg (by omega)]
    norm_num

theorem expected_score_add_symm (a b : ℝ) :
    expected_score a b + expected_score b a = 1 := by
  unfold expected_score
  have hu : (0 : ℝ) < (10 : ℝ) ^ ((b - a) / 400) := Real.rpow_pos_of_pos (by norm_num) _
  have hv : (10 : ℝ) ^ ((a - b) / 400) = ((10 : ℝ) ^ ((b - a) / 400))⁻¹ := by
    rw [← Real.rpow_neg (by norm_num : (0:ℝ) ≤ 10)]
    ring_nf
  rw [hv]
  have h1 : (1 : ℝ) + (10 : ℝ) ^ ((b - a) / 400) ≠ 0 := by positivity
  field_simp
  ring

end EloLemmas

section ZeroSum

theorem sum_map_getD {α : Type} [Inhabited α] (f : α → ℝ) :
    ∀ l : List α, (l.map f).sum = ∑ i in Finset.range l.length, f (l.getD i default) := by
  intro l
  induction l with
  | nil => simp
  | cons x xs ih =>
    rw [List.map_cons, List.sum_cons, ih, List.length_cons, Finset.sum_range_succ']
    simp [List.getD_cons_zero, List.getD_cons_succ, add_comm]

theorem alookup_getD {β : Type} [Inhabited β] :
    ∀ (l : List (Str × β)), (l.map Prod.fst).Nodup →
      ∀ i, i < l.length → alookup (l.getD i default).1 l = some (l.getD i default).2 := by
  intro l
  induction l with
  | nil => intro _ i hi; simp at hi
  | cons pr rest ih =>
    intro hnd i hi
    rw [List.map_cons, List.nodup_cons] at hnd
    cases i with
    | zero => simp [List.getD_cons_zero, alookup]
    | succ i' =>
      rw [List.getD_cons_succ]
      have hi' : i' < rest.length := by simpa using hi
      have hmem : rest.getD i' default ∈ rest := by
        rw [List.getD_eq_getElem rest default hi']
        exact List.getElem_mem hi'
      have hne : pr.1 ≠ (rest.getD i' default).1 := by
        intro hc
        exact hnd.1 (by rw [hc]; exact List.mem_map_of_mem Prod.fst hmem)
      simp only [alookup, if_neg hne]
      exact ih hnd.2 i' hi'

theorem buildChanges_keys (k_adjusted : ℝ) (prs : List (Str × Nat × ℝ))
    (hnd : (prs.map Prod.fst).Nodup) :
    (buildChanges k_adjusted prs).map Prod.fst = prs.map Prod.fst := by
  rw [buildChanges_eq _ _ hnd]
  refine List.ext_getElem (by simp) ?_
  intro i h1 h2
  simp only [List.getElem_map, List.getElem_range]
  rw [List.getD_eq_getElem prs default (by simpa using h2)]

end ZeroSum

/-- A double sum of an antisymmetric family over a square range vanishes. -/
theorem double_sum_antisymm (n : Nat) (F : Nat → Nat → ℝ)
    (h : ∀ i j, F i j + F j i = 0) :
    ∑ i in Finset.range n, ∑ j in Finset.range n, F i j = 0 := by
  have h1 : (∑ i in Finset.range n, ∑ j in Finset.range n, F i j) +
      (∑ i in Finset.range n, ∑ j in Finset.range n, F j i) = 0 := by
    rw [← Finset.sum_add_distrib]
    have hrow : ∀ i ∈ Finset.range n,
        (∑ j in Finset.range n, F i j) + (∑ j in Finset.range n, F j i) = 0 := by
      intro i _
      rw [← Finset.sum_add_distrib]
      simp [h]
    rw [Finset.sum_congr rfl hrow]
    simp
  have h2 : (∑ i in Finset.range n, ∑ j in Finset.range n, F j i) =
      ∑ i in Finset.range n, ∑ j in Finset.range n, F i j := Finset.sum_comm
  linarith

/-- C4.  For every completed match with at least two (distinct) players and
arbitrary scores, `process_match` changes ratings so that the sum over all
players of `rating_after - rating_before` is 0 within `1e-6` (in the exact
real model the sum is exactly 0: the pairwise deltas are computed from
pre-match ratings and applied simultaneously, and the actual as well as the
expected scores of a pair each sum to 1). -/
theorem process_match_zero_sum (k : ℝ) (rs : Ratings) (m : MatchResult)
    (hc : m.completed = true) (hn : 2 ≤ m.scores.length)
    (hnd : (m.scores.map Prod.fst).Nodup) :
    |(m.scores.map (fun sc => rating (process_match k rs m) sc.1 - rating rs sc.1)).sum|
      ≤ 1 / 1000000 := by
  have hns : ¬(m.completed = false ∨ m.scores.length < 2) := by
    rintro (h | h)
    · rw [hc] at h; exact Bool.noConfusion h
    · omega
  have hpm : process_match k rs m =
      applyChanges rs
        (buildChanges (k / ((m.scores.length - 1 : Nat) : ℝ))
          (m.scores.map (fun sc => (sc.1, sc.2, rating rs sc.1)))) := by
    unfold process_match
    rw [if_neg hns]
  have hprskeys :
      ((m.scores.map (fun sc => (sc.1, sc.2, rating rs sc.1))).map Prod.fst) =
        m.scores.map Prod.fst := by
    rw [List.map_map]; rfl
  have hndprs :
      (((m.scores.map (fun sc => (sc.1, sc.2, rating rs sc.1))).map Prod.fst)).Nodup := by
    rw [hprskeys]; exact hnd
  have hchkeys :
      ((buildChanges (k / ((m.scores.length - 1 : Nat) : ℝ))
          (m.scores.map (fun sc => (sc.1, sc.2, rating rs sc.1)))).map Prod.fst) =
        m.scores.map Prod.fst := by
    rw [buildChanges_keys _ _ hndprs, hprskeys]
  have hchnd :
      (((buildChanges (k / ((m.scores.length - 1 : Nat) : ℝ))
          (m.scores.map (fun sc => (sc.1, sc.2, rating rs sc.1)))).map Prod.fst)).Nodup := by
    rw [hchkeys]; exact hnd
  have hchlen :
      (buildChanges (k / ((m.scores.length - 1 : Nat) : ℝ))
          (m.scores.map (fun sc => (sc.1, sc.2, rating rs sc.1)))).length =
        m.scores.length := by
    have := congrArg List.length hchkeys
    simpa using this
  have hentry : ∀ i, i < m.scores.length →
      (buildChanges (k / ((m.scores.length - 1 : Nat) : ℝ))
          (m.scores.map (fun sc => (sc.1, sc.2, rating rs sc.1)))).getD i default =
        (((m.scores.map (fun sc => (sc.1, sc.2, rating rs sc.1))).getD i default).1,
          changeFor (k / ((m.scores.length - 1 : Nat) : ℝ))
            (m.scores.map (fun sc => (sc.1, sc.2, rating rs sc.1))) i) := by
    intro i hi
    rw [buildChanges_eq _ _ hndprs,
      List.getD_eq_getElem _ default (by simpa using hi),
      List.getElem_map, List.getElem_range]
  have hp1 : ∀ i, i < m.scores.length →
      ((m.scores.map (fun sc => (sc.1, sc.2, rating rs sc.1))).getD i default).1 =
        (m.scores.getD i default).1 := by
    intro i hi
    rw [List.getD_eq_getElem _ default (by simpa using hi), List.getElem_map,
      List.getD_eq_getElem _ default hi]
  have hdiff : ∀ i, i < m.scores.length →
      rating (process_match k rs m) (m.scores.getD i default).1 -
          rating rs (m.scores.getD i default).1 =
        changeFor (k / ((m.scores.length - 1 : Nat) : ℝ))
          (m.scores.map (fun sc => (sc.1, sc.2, rating rs sc.1))) i := by
    intro i hi
    have hai : alookup (m.scores.getD i default).1
        (buildChanges (k / ((m.scores.length - 1 : Nat) : ℝ))
          (m.scores.map (fun sc => (sc.1, sc.2, rating rs sc.1)))) =
        some (changeFor (k / ((m.scores.length - 1 : Nat) : ℝ))
          (m.scores.map (fun sc => (sc.1, sc.2, rating rs sc.1))) i) := by
      have h1 := alookup_getD _ hchnd i (by rwa [hchlen])
      rw [hentry i hi, hp1 i hi] at h1
      exact h1
    rw [hpm, applyChanges_rating _ rs hchnd, hai]
    ring
  rw [show (m.scores.map
      (fun sc => rating (process_match k rs m) sc.1 - rating rs sc.1)).sum = 0 from ?_]
  · norm_num
  rw [sum_map_getD]
  rw [Finset.sum_congr rfl (fun i hi => hdiff i (Finset.mem_range.mp hi))]
  rw [Finset.sum_congr rfl (fun i _ => by
    rw [changeFor_eq_sum,
      show (m.scores.map (fun sc => (sc.1, sc.2, rating rs sc.1))).length =
        m.scores.length from by simp])]
  refine double_sum_antisymm m.scores.length _ ?_
  intro i j
  by_cases hij : i = j
  · subst hij; simp
  · rw [if_neg (fun h => hij h.symm), if_neg hij]
    have ha := actualScore_add_symm
      ((m.scores.map (fun sc => (sc.1, sc.2, rating rs sc.1))).getD i default).2.1
      ((m.scores.map (fun sc => (sc.1, sc.2, rating rs sc.1))).getD j default).2.1
    have he := expected_score_add_symm
      ((m.scores.map (fun sc => (sc.1, sc.2, rating rs sc.1))).getD i default).2.2
      ((m.scores.map (fun sc => (sc.1, sc.2, rating rs sc.1))).getD j default).2.2
    linear_combination (k / ((m.scores.length - 1 : Nat) : ℝ)) * ha -
      (k / ((m.scores.length - 1 : Nat) : ℝ)) * he

/-- Concrete instance of `process_match_zero_sum`: a two-player match from
default ratings. -/
theorem process_match_zero_sum_witness :
    |((⟨1, [(['A'], 2), (['B'], 1)], [], true⟩ : MatchResult).scores.map
        (fun sc => rating (process_match 32 []
            (⟨1, [(['A'], 2), (['B'], 1)], [], true⟩ : MatchResult)) sc.1 -
          rating [] sc.1)).sum| ≤ 1 / 1000000 :=
  process_match_zero_sum 32 [] ⟨1, [(['A'], 2), (['B'], 1)], [], true⟩ rfl
    (by decide) (by decide)

section SortedLemmas

theorem insOne_pairwise {α : Type} (le : α → α → Bool)
    (htot : ∀ x y, le x y = true ∨ le y x = true)
    (htrans : ∀ x y z, le x y = true → le y z = true → le x z = true) (x : α) :
    ∀ l : List α, l.Pairwise (fun a b => le a b = true) →
      (insOne le x l).Pairwise (fun a b => le a b = true) := by
  intro l
  induction l with
  | nil => intro _; simp [insOne]
  | cons y ys ih =>
    intro hl
    rw [List.pairwise_cons] at hl
    by_cases h : le y x = true
    · rw [insOne, if_pos h, List.pairwise_cons]
      refine ⟨?_, ih hl.2⟩
      intro z hz
      have hz' : z ∈ x :: ys := (insOne_perm le x ys).mem_iff.mp hz
      rcases List.mem_cons.mp hz' with rfl | hz2
      · exact h
      · exact hl.1 z hz2
    · rw [insOne, if_neg h, List.pairwise_cons]
      have hxy : le x y = true := (htot x y).resolve_right (fun hc => h hc)
      refine ⟨?_, List.pairwise_cons.mpr hl⟩
      intro z hz
      rcases List.mem_cons.mp hz with rfl | hz
      · exact hxy
      · exact htrans x y z hxy (hl.1 z hz)

theorem stableSortBy_pairwise {α : Type} (le : α → α → Bool)
    (htot : ∀ x y, le x y = true ∨ le y x = true)
    (htrans : ∀ x y z, le x y = true → le y z = true → le x z = true) (l : List α) :
    (stableSortBy le l).Pairwise (fun a b => le a b = true) := by
  suffices h : ∀ (l acc : List α), acc.Pairwise (fun a b => le a b = true) →
      (l.foldl (fun a x => insOne le x a) acc).Pairwise (fun a b => le a b = true) by
    exact h l [] (by simp)
  intro l
  induction l with
  | nil => intro acc hacc; exact hacc
  | cons x rest ih =>
    intro acc hacc
    exact ih (insOne le x acc) (insOne_pairwise le htot htrans x acc hacc)

theorem nodup_key_pairwise_ne {α κ : Type} (key : α → κ) :
    ∀ l : List α, (l.map key).Nodup → l.Pairwise (fun a b => key a ≠ key b) := by
  intro l
  induction l with
  | nil => intro _; simp
  | cons x xs ih =>
    intro hnd
    rw [List.map_cons, List.nodup_cons] at hnd
    rw [List.pairwise_cons]
    refine ⟨?_, ih hnd.2⟩
    intro b hb hc
    exact hnd.1 (by rw [hc]; exact List.mem_map_of_mem key hb)

end SortedLemmas

/-- Closed form of `process_match` on a completed two-player match with
distinct handles: each player's rating moves by
`K * (actual - expected)` computed against the opponent's pre-match
rating. -/
theorem process_match_two_rating (k : ℝ) (rs : Ratings) (mid : Int) (h p q : Str)
    (sp sq : Nat) (hpq : p ≠ q) :
    rating (process_match k rs ⟨mid, [(p, sp), (q, sq)], h, true⟩) p =
        rating rs p + k * (actualScore sp sq - expected_score (rating rs p) (rating rs q))
    ∧ rating (process_match k rs ⟨mid, [(p, sp), (q, sq)], h, true⟩) q =
        rating rs q + k * (actualScore sq sp - expected_score (rating rs q) (rating rs p)) := by
  have hcond : ¬((⟨mid, [(p, sp), (q, sq)], h, true⟩ : MatchResult).completed = false ∨
      (⟨mid, [(p, sp), (q, sq)], h, true⟩ : MatchResult).scores.length < 2) := by
    simp
  have hmap : (⟨mid, [(p, sp), (q, sq)], h, true⟩ : MatchResult).scores.map
      (fun sc => (sc.1, sc.2, rating rs sc.1)) =
      [(p, sp, rating rs p), (q, sq, rating rs q)] := rfl
  have hkadj : (k / (((⟨mid, [(p, sp), (q, sq)], h, true⟩ : MatchResult).scores.length
      - 1 : Nat) : ℝ)) = k := by
    norm_num
  have hndk : (([(p, sp, rating rs p), (q, sq, rating rs q)] :
      List (Str × Nat × ℝ)).map Prod.fst).Nodup := by
    simp [hpq]
  have hlen2 : ([(p, sp, rating rs p), (q, sq, rating rs q)] :
      List (Str × Nat × ℝ)).length = 2 := rfl
  have hf0 : ((List.range 2).filter (fun j => j ≠ 0)) = [1] := by decide
  have hf1 : ((List.range 2).filter (fun j => j ≠ 1)) = [0] := by decide
  have hc0 : changeFor k [(p, sp, rating rs p), (q, sq, rating rs q)] 0 =
      k * (actualScore sp sq - expected_score (rating rs p) (rating rs q)) := by
    unfold changeFor
    rw [hlen2, hf0]
    simp [List.getD_cons_zero, List.getD_cons_succ]
  have hc1 : changeFor k [(p, sp, rating rs p), (q, sq, rating rs q)] 1 =
      k * (actualScore sq sp - expected_score (rating rs q) (rating rs p)) := by
    unfold changeFor
    rw [hlen2, hf1]
    simp [List.getD_cons_zero, List.getD_cons_succ]
  have hbc : buildChanges k [(p, sp, rating rs p), (q, sq, rating rs q)] =
      [(p, k * (actualScore sp sq - expected_score (rating rs p) (rating rs q))),
       (q, k * (actualScore sq sp - expected_score (rating rs q) (rating rs p)))] := by
    rw [buildChanges_eq _ _ hndk, hlen2]
    rw [show List.range 2 = [0, 1] from rfl]
    simp only [List.map_cons, List.map_nil, List.getD_cons_zero, List.getD_cons_succ]
    rw [hc0, hc1]
  have hpm : process_match k rs (⟨mid, [(p, sp), (q, sq)], h, true⟩ : MatchResult) =
      applyChanges rs
        [(p, k * (actualScore sp sq - expected_score (rating rs p) (rating rs q))),
         (q, k * (actualScore sq sp - expected_score (rating rs q) (rating rs p)))] := by
    unfold process_match
    rw [if_neg hcond, hmap, hkadj, hbc]
  have happ : applyChanges rs
      [(p, k * (actualScore sp sq - expected_score (rating rs p) (rating rs q))),
       (q, k * (actualScore sq sp - expected_score (rating rs q) (rating rs p)))] =
      upsert q (rating (upsert p (rating rs p +
            k * (actualScore sp sq - expected_score (rating rs p) (rating rs q))) rs) q +
          k * (actualScore sq sp - expected_score (rating rs q) (rating rs p)))
        (upsert p (rating rs p +
            k * (actualScore sp sq - expected_score (rating rs p) (rating rs q))) rs) := rfl
  rw [hpm, happ]
  constructor
  · rw [rating_upsert, if_neg (fun hqp => hpq hqp.symm), rating_upsert, if_pos rfl]
  · rw [rating_upsert, if_pos rfl, rating_upsert, if_neg hpq]

/-- A completed two-player match with the given id in which P beats Q. -/
def mPbeatsQ (mid : Int) : MatchResult := ⟨mid, [(['P'], 1), (['Q'], 0)], [], true⟩

/-- A completed two-player match with the given id in which Q beats P. -/
def mQbeatsP (mid : Int) : MatchResult := ⟨mid, [(['P'], 0), (['Q'], 1)], [], true⟩

theorem expected_score_self (a : ℝ) : expected_score a a = 1 / 2 := by
  unfold expected_score
  rw [sub_self, zero_div, Real.rpow_zero]
  norm_num

theorem rating_nil (p : Str) : rating [] p = 1200 := rfl

/-- Folding "P beats Q" then "Q beats P" from scratch leaves P at
`1216 - 32 * E` with `E` the expected score of a 1216 player against a 1184
player. -/
theorem foldl_PQ_QP (i j : Int) :
    rating ([mPbeatsQ i, mQbeatsP j].foldl (process_match 32) []) ['P'] =
      1216 - 32 * expected_score 1216 1184 := by
  have hne : (['P'] : Str) ≠ ['Q'] := by decide
  have h1 := process_match_two_rating 32 [] i [] ['P'] ['Q'] 1 0 hne
  have h1P : rating (process_match 32 [] (mPbeatsQ i)) ['P'] = 1216 := by
    rw [show mPbeatsQ i = ⟨i, [(['P'], 1), (['Q'], 0)], [], true⟩ from rfl, h1.1,
      rating_nil, rating_nil, expected_score_self,
      show actualScore 1 0 = 1 from by norm_num [actualScore]]
    norm_num
  have h1Q : rating (process_match 32 [] (mPbeatsQ i)) ['Q'] = 1184 := by
    rw [show mPbeatsQ i = ⟨i, [(['P'], 1), (['Q'], 0)], [], true⟩ from rfl, h1.2,
      rating_nil, rating_nil, expected_score_self,
      show actualScore 0 1 = 0 from by norm_num [actualScore]]
    norm_num
  have h2 := process_match_two_rating 32 (process_match 32 [] (mPbeatsQ i)) j []
    ['P'] ['Q'] 0 1 hne
  show rating (process_match 32 (process_match 32 [] (mPbeatsQ i)) (mQbeatsP j)) ['P'] = _
  rw [show mQbeatsP j = ⟨j, [(['P'], 0), (['Q'], 1)], [], true⟩ from rfl, h2.1,
    h1P, h1Q, show actualScore 0 1 = 0 from by norm_num [actualScore]]
  ring

/-- Folding "Q beats P" then "P beats Q" from scratch leaves P at
`1184 + 32 * (1 - E')` with `E'` the expected score of a 1184 player against
a 1216 player. -/
theorem foldl_QP_PQ (i j : Int) :
    rating ([mQbeatsP i, mPbeatsQ j].foldl (process_match 32) []) ['P'] =
      1184 + 32 * (1 - expected_score 1184 1216) := by
  have hne : (['P'] : Str) ≠ ['Q'] := by decide
  have h1 := process_match_two_rating 32 [] i [] ['P'] ['Q'] 0 1 hne
  have h1P : rating (process_match 32 [] (mQbeatsP i)) ['P'] = 1184 := by
    rw [show mQbeatsP i = ⟨i, [(['P'], 0), (['Q'], 1)], [], true⟩ from rfl, h1.1,
      rating_nil, rating_nil, expected_score_self,
      show actualScore 0 1 = 0 from by norm_num [actualScore]]
    norm_num
  have h1Q : rating (process_match 32 [] (mQbeatsP i)) ['Q'] = 1216 := by
    rw [show mQbeatsP i = ⟨i, [(['P'], 0), (['Q'], 1)], [], true⟩ from rfl, h1.2,
      rating_nil, rating_nil, expected_score_self,
      show actualScore 1 0 = 1 from by norm_num [actualScore]]
    norm_num
  have h2 := process_match_two_rating 32 (process_match 32 [] (mQbeatsP i)) j []
    ['P'] ['Q'] 1 0 hne
  show rating (process_match 32 (process_match 32 [] (mQbeatsP i)) (mPbeatsQ j)) ['P'] = _
  rw [show mPbeatsQ j = ⟨j, [(['P'], 1), (['Q'], 0)], [], true⟩ from rfl, h2.1,
    h1P, h1Q, show actualScore 1 0 = 1 from by norm_num [actualScore]]

/-- The two processing orders genuinely disagree on P's final rating: the
favourite's expected score strictly exceeds one half. -/
theorem order_values_ne :
    1216 - 32 * expected_score 1216 1184 ≠ 1184 + 32 * (1 - expected_score 1184 1216) := by
  have hsum := expected_score_add_symm (1216 : ℝ) 1184
  have hu0 : (0 : ℝ) < (10 : ℝ) ^ (((1184 : ℝ) - 1216) / 400) :=
    Real.rpow_pos_of_pos (by norm_num) _
  have hu1 : (10 : ℝ) ^ (((1184 : ℝ) - 1216) / 400) < 1 :=
    Real.rpow_lt_one_of_one_lt_of_neg (by norm_num) (by norm_num)
  have hE : expected_score 1216 1184 =
      1 / (1 + (10 : ℝ) ^ (((1184 : ℝ) - 1216) / 400)) := rfl
  have hEgt : 1 / 2 < expected_score (1216 : ℝ) 1184 := by
    rw [hE]
    rw [div_lt_div_iff₀ (by norm_num) (by linarith)]
    linarith
  intro hc
  have : expected_score (1184 : ℝ) 1216 = 1 - expected_score 1216 1184 := by linarith
  rw [this] at hc
  have : expected_score (1216 : ℝ) 1184 = 1 / 2 := by linarith
  linarith

/-- C5 counterexample.  Two distinct completed matches sharing `match_id = 1`
in either order: the inputs are permutations of each other, yet
`replay_matches` gives P different final ratings (the stable sort keeps the
input order of equal keys, and Elo folding does not commute). -/
theorem replay_matches_reorder_counterexample :
    [mPbeatsQ 1, mQbeatsP 1].Perm [mQbeatsP 1, mPbeatsQ 1]
    ∧ rating (replay_matches 32 [mPbeatsQ 1, mQbeatsP 1]) ['P'] ≠
        rating (replay_matches 32 [mQbeatsP 1, mPbeatsQ 1]) ['P'] := by
  constructor
  · exact List.Perm.swap _ _ _
  · have h1 : stableSortBy matchLE [mPbeatsQ 1, mQbeatsP 1] =
        [mPbeatsQ 1, mQbeatsP 1] := by decide
    have h2 : stableSortBy matchLE [mQbeatsP 1, mPbeatsQ 1] =
        [mQbeatsP 1, mPbeatsQ 1] := by decide
    unfold replay_matches
    rw [h1, h2, foldl_PQ_QP, foldl_QP_PQ]
    exact order_values_ne

/-- C5 (amended).  For every list of match results whose `match_id`s are
pairwise distinct, every permutation of the list replays to the same final
ratings: the internal stable sort by `match_id` maps both inputs to the same
sorted list. -/
theorem replay_matches_reorder_of_nodup_ids (k : ℝ) (ms1 ms2 : List MatchResult)
    (hperm : ms1.Perm ms2) (hnd : (ms1.map MatchResult.match_id).Nodup) :
    replay_matches k ms1 = replay_matches k ms2 := by
  suffices hs : stableSortBy matchLE ms1 = stableSortBy matchLE ms2 by
    unfold replay_matches
    rw [hs]
  have htot : ∀ x y : MatchResult, matchLE x y = true ∨ matchLE y x = true := by
    intro x y
    unfold matchLE
    rcases le_total x.match_id y.match_id with h | h
    · exact Or.inl (decide_eq_true h)
    · exact Or.inr (decide_eq_true h)
  have htrans : ∀ x y z : MatchResult,
      matchLE x y = true → matchLE y z = true → matchLE x z = true := by
    intro x y z h1 h2
    unfold matchLE at h1 h2 ⊢
    exact decide_eq_true (le_trans (of_decide_eq_true h1) (of_decide_eq_true h2))
  have hperm1 : (stableSortBy matchLE ms1).Perm (stableSortBy matchLE ms2) :=
    (stableSortBy_perm _ ms1).trans (hperm.trans (stableSortBy_perm _ ms2).symm)
  have hpw1 := stableSortBy_pairwise matchLE htot htrans ms1
  have hpw2 := stableSortBy_pairwise matchLE htot htrans ms2
  have hnd1 : ((stableSortBy matchLE ms1).map MatchResult.match_id).Nodup :=
    (((stableSortBy_perm matchLE ms1).map MatchResult.match_id).nodup_iff).mpr hnd
  have hnd2 : ((stableSortBy matchLE ms2).map MatchResult.match_id).Nodup :=
    (((stableSortBy_perm matchLE ms2).map MatchResult.match_id).nodup_iff).mpr
      (((hperm.map MatchResult.match_id).nodup_iff).mp hnd)
  have hstrict : ∀ l : List MatchResult,
      l.Pairwise (fun a b => matchLE a b = true) →
      (l.map MatchResult.match_id).Nodup →
      l.Pairwise (fun a b => a.match_id < b.match_id) := by
    intro l hp hn
    have hne := nodup_key_pairwise_ne MatchResult.match_id l hn
    refine (hp.and hne).imp ?_
    intro a b hab
    exact lt_of_le_of_ne (of_decide_eq_true hab.1) hab.2
  haveI : IsAntisymm MatchResult (fun a b => a.match_id < b.match_id) :=
    ⟨fun a b h1 h2 => absurd (lt_trans h1 h2) (lt_irrefl _)⟩
  exact List.eq_of_perm_of_sorted hperm1 (hstrict _ hpw1 hnd1) (hstrict _ hpw2 hnd2)

/-- Concrete instance of `replay_matches_reorder_of_nodup_ids`: distinct ids
1 and 2, swapped input order. -/
theorem replay_matches_reorder_witness :
    replay_matches 32 [mPbeatsQ 1, mQbeatsP 2] = replay_matches 32 [mQbeatsP 2, mPbeatsQ 1] :=
  replay_matches_reorder_of_nodup_ids 32 [mPbeatsQ 1, mQbeatsP 2] [mQbeatsP 2, mPbeatsQ 1]
    (List.Perm.swap _ _ _) (by decide)

/-- One `match_end` row of the `events` table together with its parsed
payload (`parse_match_result_payload`; the textual JSON parsing is elided,
the row carries the parsed result — `host_actor_id` is not read by the Elo
computation). -/
structure StoredMatchEnd : Type where
  actor_id : List Nat
  seq : Int
  created_at : Int
  result : MatchResult
deriving DecidableEq, Repr

/-- Lexicographic byte-order on actor-id blobs (SQLite BLOB comparison). -/
def bytesLT : List Nat → List Nat → Bool
  | [], [] => false
  | [], _ :: _ => true
  | _ :: _, [] => false
  | x :: xs, y :: ys => if x < y then true else if y < x then false else bytesLT xs ys

/-- The `ORDER BY created_at, actor_id, seq` of `rebuild_elo_cache`'s
match_end query. -/
def rowLE (r1 r2 : StoredMatchEnd) : Bool :=
  if r1.created_at < r2.created_at then true
  else if r2.created_at < r1.created_at then false
  else if bytesLT r1.actor_id r2.actor_id then true
  else if bytesLT r2.actor_id r1.actor_id then false
  else decide (r1.seq ≤ r2.seq)

/-- The rating computation of `Storage::rebuild_elo_cache`: the stored
match_end rows are replayed in the SQL result order
`ORDER BY created_at, actor_id, seq` — not sorted by `match_id` — each row
folded through the same pairwise update as `EloCalculator::process_match`
with `K = 32` (incomplete and single-player results skipped), starting from
an empty ratings map.  (The `derived_elo_history` side-table writes are
elided.) -/
noncomputable def rebuild_elo_cache (rows : List StoredMatchEnd) : Ratings :=
  ((stableSortBy rowLE rows).map (fun r => r.result)).foldl (process_match 32) []

/-- C3 exhibit.  Two match_end rows whose `created_at` order opposes their
`match_id` order: `rebuild_elo_cache` (which replays in
`created_at, actor_id, seq` order) and `EloCalculator::replay_matches`
(which sorts by `match_id`) disagree on P's final rating, refuting the claim
that every rating recomputation replays in ascending `match_id` order and
that the rebuilt cache matches `replay_matches`.  (The code's own comment
says "sorted by match_id for deterministic replay" while its query orders by
`created_at, actor_id, seq`.) -/
theorem rebuild_elo_cache_order_divergence :
    rating (rebuild_elo_cache
        [⟨[1], 1, 200, mPbeatsQ 100⟩, ⟨[2], 1, 100, mQbeatsP 150⟩]) ['P'] ≠
      rating (replay_matches 32 [mPbeatsQ 100, mQbeatsP 150]) ['P'] := by
  have h1 : stableSortBy rowLE
      [⟨[1], 1, 200, mPbeatsQ 100⟩, ⟨[2], 1, 100, mQbeatsP 150⟩] =
      [⟨[2], 1, 100, mQbeatsP 150⟩, ⟨[1], 1, 200, mPbeatsQ 100⟩] := by decide
  have h2 : stableSortBy matchLE [mPbeatsQ 100, mQbeatsP 150] =
      [mPbeatsQ 100, mQbeatsP 150] := by decide
  unfold rebuild_elo_cache replay_matches
  rw [h1, h2]
  rw [show ([⟨[2], 1, 100, mQbeatsP 150⟩, ⟨[1], 1, 200, mPbeatsQ 100⟩] :
      List StoredMatchEnd).map (fun r => r.result) = [mQbeatsP 150, mPbeatsQ 100] from rfl]
  rw [foldl_QP_PQ, foldl_PQ_QP]
  exact order_values_ne.symm
